/-
Verification of the trace-compiler core specification against the code base.

The repository sources available here are the test suite and
`thunder/core/codeutils.py`.  The cache, trace-IR, CSE/DCE and region
partitioning implementations are exercised by the tests but their code is not
part of the source tree, so those components are modelled from the
specification (each such definition carries a doc comment starting with
`Modelled from the spec:`).  `get_siginfo` is embedded directly from
`thunder/core/codeutils.py`.
-/
import Mathlib

set_option maxHeartbeats 1000000

/-! ### Call cache (spec section 4.6)

The cache computes a fingerprint from the static metadata of the call
arguments.  Tensor-like arguments contribute shape, element type and device;
numbers contribute their type and value; strings contribute their value;
generic objects contribute their identity.  Dtypes and devices are abstracted
as natural-number tags, and every argument additionally carries an object
identity, which the fingerprint ignores except for generic objects. -/

/-- Modelled from the spec: an argument of a compiled-function call, as seen by
the cache.  Float values are represented by an integer code: the cache only
ever compares them for equality. -/
inductive CacheArg where
  | tensor (shape : List Nat) (dtype : Nat) (device : Nat) (ident : Nat)
  | intNum (v : Int) (ident : Nat)
  | floatNum (v : Int) (ident : Nat)
  | strArg (v : String) (ident : Nat)
  | objArg (ident : Nat)
deriving DecidableEq

/-- Modelled from the spec: the per-argument fingerprint.  Tensors are reduced
to shape/dtype/device, numbers to type and value, strings to their value, and
generic objects to their identity. -/
inductive FPrint where
  | tensor (shape : List Nat) (dtype : Nat) (device : Nat)
  | intNum (v : Int)
  | floatNum (v : Int)
  | strFP (v : String)
  | objFP (ident : Nat)
deriving DecidableEq

/-- Modelled from the spec: fingerprint of one argument. -/
def fingerprintArg : CacheArg → FPrint
  | .tensor shape dtype device _ => .tensor shape dtype device
  | .intNum v _ => .intNum v
  | .floatNum v _ => .floatNum v
  | .strArg v _ => .strFP v
  | .objArg ident => .objFP ident

/-- Modelled from the spec: fingerprint of a full call. -/
def fingerprint (call : List CacheArg) : List FPrint :=
  call.map fingerprintArg

/-- Modelled from the spec: the state of a static-fingerprinting cache —
the stored fingerprints and the monotone hit/miss counters. -/
structure CacheState where
  entries : List (List FPrint)
  misses : Nat
  hits : Nat
deriving DecidableEq

/-- Modelled from the spec: the empty cache. -/
def initCache : CacheState := ⟨[], 0, 0⟩

/-- Modelled from the spec: one call against the cache.  A known fingerprint
is a hit; anything else is a miss and creates a new entry. -/
def cacheStep (s : CacheState) (call : List CacheArg) : CacheState :=
  let fp := fingerprint call
  if fp ∈ s.entries then
    { s with hits := s.hits + 1 }
  else
    { entries := fp :: s.entries, misses := s.misses + 1, hits := s.hits }

/-- Modelled from the spec: run a sequence of calls from the empty cache. -/
def runCalls (history : List (List CacheArg)) : CacheState :=
  history.foldl cacheStep initCache

/-- Concrete tensors used in the static-caching scenario: `a`, `b` of shape
(2,2) in dtype 0 on device 0, fresh tensor `c` with identical metadata,
`d` of shape (2,1), and `e` of a different element type. -/
def tensA : CacheArg := .tensor [2, 2] 0 0 1

def tensB : CacheArg := .tensor [2, 2] 0 0 2

def tensC : CacheArg := .tensor [2, 2] 0 0 3

def tensD : CacheArg := .tensor [2, 1] 0 0 4

def tensE : CacheArg := .tensor [2, 2] 1 0 5

/-- The six calls of the static-caching scenario, in order. -/
def staticCalls : List (List CacheArg) :=
  [[tensA, tensB], [tensA, tensB], [tensA, tensC],
   [tensA, tensD], [tensA, tensE], [tensA, .floatNum 1 6]]

/-! ### Cache mode configuration (spec sections 4.6 and 7) -/
/-- Modelled from the spec: the supported cache modes. -/
inductive CacheMode where
  | staticMode
  | lastExecuted
  | disabled
deriving DecidableEq

/-- Modelled from the spec: resolving the cache-mode compile options.
Requesting both static fingerprinting and last-executed reuse at the same
time is a fatal configuration error reported immediately. -/
def resolveCacheMode (useStaticCaching useLastExecuted : Bool) :
    Except String CacheMode :=
  if useStaticCaching && useLastExecuted then
    .error "only one caching mode can be specified"
  else if useStaticCaching then .ok .staticMode
  else if useLastExecuted then .ok .lastExecuted
  else .ok .disabled

/-! ### Trace name generation (spec sections 4.1 and 8)

The trace builder owns a counter and a name template; the generated names are
the template letter followed by the decimal digits of the counter. -/
/-- Modelled from the spec: the decimal digit characters.  Name generation
(`TraceCtx._gen_name`) is absent from src/; names are deterministic,
`t` followed by the decimal rendering of the counter. -/
def digitChar (d : Nat) : Char :=
  match d with
  | 0 => '0' | 1 => '1' | 2 => '2' | 3 => '3' | 4 => '4'
  | 5 => '5' | 6 => '6' | 7 => '7' | 8 => '8' | 9 => '9'
  | _ => '0'

/-- Modelled from the spec: the decimal digit characters of a counter, most
significant first. -/
def natDigitChars (n : Nat) : List Char :=
  if n = 0 then ['0'] else ((Nat.digits 10 n).reverse.map digitChar)

/-- Modelled from the spec: the name generated for a counter value. -/
def genName (ctr : Nat) : String :=
  String.mk ('t' :: natDigitChars ctr)

/-! ### Bound operations: structural equality and hashing (spec sections 3, 4.3, 9)

A bound operation records its symbol and its positional/keyword argument
values.  The right-hand-side key canonicalizes every argument — dropping proxy
names but keeping shape/dtype/device metadata — as mandated by the design
notes ("recursively reduce any argument to a fixed, order-preserving primitive
representation before hashing/comparing").  Containers are modelled as
cons-lists of values. -/
/-- Modelled from the spec: an argument value of a bound operation — a proxy
carrying only metadata, a constant number, a string constant, or a (nested)
container built from `nilv`/`consv`. -/
inductive TVal where
  | proxy (name : String) (shape : List Nat) (dtype : Nat) (device : Nat)
  | numv (v : Int)
  | strv (s : String)
  | nilv
  | consv (hd tl : TVal)
deriving DecidableEq

/-- Modelled from the spec: the canonical form of an argument value; proxy
names are dropped, everything else is kept. -/
inductive CanonKey where
  | arr (shape : List Nat) (dtype : Nat) (device : Nat)
  | numk (v : Int)
  | strk (s : String)
  | nilk
  | consk (hd tl : CanonKey)
deriving DecidableEq

/-- Modelled from the spec: canonicalization of one argument value. -/
def canon : TVal → CanonKey
  | .proxy _ shape dtype device => .arr shape dtype device
  | .numv v => .numk v
  | .strv s => .strk s
  | .nilv => .nilk
  | .consv hd tl => .consk (canon hd) (canon tl)

/-- Modelled from the spec: a symbol reference; symbols are deduplicated by
id, so two references with the same id must compare and hash equal even when
other fields differ. -/
structure OpSym where
  id : Nat
  name : String
deriving DecidableEq

/-- Modelled from the spec: symbols compare by id. -/
def symEq (s1 s2 : OpSym) : Bool := s1.id == s2.id

/-- Modelled from the spec: symbols hash by id. -/
def symHash (s : OpSym) : Nat := s.id

/-- Modelled from the spec: a bound operation — a symbol applied to resolved
positional and keyword argument values. -/
structure BSym where
  sym : OpSym
  args : List TVal
  kwargs : List (String × TVal)

/-- Modelled from the spec: the right-hand-side key of a bound operation —
symbol id plus the canonicalized positional and keyword arguments. -/
def rhs (b : BSym) : Nat × List CanonKey × List (String × CanonKey) :=
  (b.sym.id, b.args.map canon, b.kwargs.map (fun kv => (kv.1, canon kv.2)))

/-- Length-tagged fold encoding of a list of naturals into one natural. -/
def encodeNatList (l : List Nat) : Nat :=
  Nat.pair l.length (l.foldr Nat.pair 0)

/-- Hash of a canonical key. -/
def hashCanon : CanonKey → Nat
  | .arr shape dtype device =>
      Nat.pair 0 (Nat.pair (encodeNatList shape) (Nat.pair dtype device))
  | .numk v => Nat.pair 1 v.natAbs
  | .strk s => Nat.pair 2 s.length
  | .nilk => Nat.pair 3 0
  | .consk hd tl => Nat.pair 4 (Nat.pair (hashCanon hd) (hashCanon tl))

/-- Hash of a right-hand-side key; a function of the key alone, so
structurally equal bound operations necessarily hash equal. -/
def hashRhs (r : Nat × List CanonKey × List (String × CanonKey)) : Nat :=
  Nat.pair r.1
    (Nat.pair (encodeNatList (r.2.1.map hashCanon))
      (encodeNatList (r.2.2.map (fun kv => Nat.pair kv.1.length (hashCanon kv.2)))))

/-- Modelled from the spec: the hash of a bound operation's right-hand side. -/
def rhsHash (b : BSym) : Nat := hashRhs (rhs b)

/-- Recursive value/shape/dtype equality of argument values, ignoring proxy
names, exactly as the spec words structural equality. -/
def valEq : TVal → TVal → Prop
  | .proxy _ sh dt dev, .proxy _ sh' dt' dev' => sh = sh' ∧ dt = dt' ∧ dev = dev'
  | .numv v, .numv w => v = w
  | .strv s, .strv t => s = t
  | .nilv, .nilv => True
  | .consv h t, .consv h' t' => valEq h h' ∧ valEq t t'
  | _, _ => False

/-- Structural equality of bound operations as the spec words it: equal symbol
ids, and positional and keyword arguments recursively equal by
value/shape/dtype. -/
def StructEq (b1 b2 : BSym) : Prop :=
  b1.sym.id = b2.sym.id ∧
  List.Forall₂ valEq b1.args b2.args ∧
  List.Forall₂ (fun p q : String × TVal => p.1 = q.1 ∧ valEq p.2 q.2)
    b1.kwargs b2.kwargs

/-! ### Region partitioning and fusion merge (spec section 4.5)

Each bound operation carries a candidate backend.  The naive partition groups
maximal runs of adjacent same-backend operations; regions are then greedily
merged: two same-backend regions merge as long as no different-backend region
sits on a dependency path between them, tie-breaking by original order. -/
/-- Modelled from the spec: an operation of a trace for partitioning — its
output proxy id, its input proxy ids, and its candidate backend. -/
structure FOp where
  out : Nat
  ins : List Nat
  backend : Nat
deriving DecidableEq

/-- Modelled from the spec: backend of a region (all its operations share
it). -/
def regionBackend (r : List FOp) : Nat :=
  match r with
  | [] => 0
  | op :: _ => op.backend

/-- Modelled from the spec: the naive partition — each maximal run of adjacent
same-backend operations becomes one region. -/
def naivePartition : List FOp → List (List FOp)
  | [] => []
  | op :: rest =>
    match naivePartition rest with
    | [] => [[op]]
    | r :: rs =>
      if regionBackend r == op.backend then (op :: r) :: rs
      else [op] :: r :: rs

/-- Modelled from the spec: region `a` directly depends on region `b` when an
output of `b` is an input of an operation of `a`. -/
def dependsDirect (a b : List FOp) : Bool :=
  a.any (fun op => op.ins.any (fun i => b.any (fun op2 => op2.out == i)))

/-- Modelled from the spec: transitive dependency between regions of the
current region list, with explicit fuel. -/
def depTrans (rs : List (List FOp)) : Nat → List FOp → List FOp → Bool
  | 0, a, b => dependsDirect a b
  | fuel + 1, a, b =>
    dependsDirect a b ||
      rs.any (fun c => dependsDirect a c && depTrans rs fuel c b)

/-- Modelled from the spec: regions `a` (earlier) and `b` (later) may merge
when they share a backend and no different-backend region sits on a
dependency path from `b` down to `a`. -/
def legalMerge (rs : List (List FOp)) (a b : List FOp) : Bool :=
  regionBackend a == regionBackend b &&
  !(rs.any fun r =>
      r != a && r != b && regionBackend r != regionBackend a &&
      depTrans rs rs.length b r && depTrans rs rs.length r a)

/-- Modelled from the spec: the first legal merge pair in original order. -/
def pairSearch (rs : List (List FOp)) : Option (Nat × Nat) :=
  (List.range rs.length).findSome? fun i =>
    ((List.range rs.length).filter (fun j => i < j)).findSome? fun j =>
      match rs[i]?, rs[j]? with
      | some a, some b => if legalMerge rs a b then some (i, j) else none
      | _, _ => none

/-- Modelled from the spec: merge region `j` into region `i`, keeping region
`i`'s position (stable, deterministic tie-breaking by original order). -/
def applyMerge (rs : List (List FOp)) (i j : Nat) : List (List FOp) :=
  match rs[i]?, rs[j]? with
  | some a, some b => (rs.set i (a ++ b)).eraseIdx j
  | _, _ => rs

/-- Modelled from the spec: repeatedly merge until no legal pair remains. -/
def mergeLoop : Nat → List (List FOp) → List (List FOp)
  | 0, rs => rs
  | fuel + 1, rs =>
    match pairSearch rs with
    | none => rs
    | some (i, j) => mergeLoop fuel (applyMerge rs i j)

/-- Modelled from the spec: the final region list of a trace. -/
def partitionTrace (t : List FOp) : List (List FOp) :=
  mergeLoop t.length (naivePartition t)

/-- Modelled from the spec: the fused regions — those assigned to the fusion
backend (backend 0). -/
def fusedRegions (t : List FOp) : List (List FOp) :=
  (partitionTrace t).filter (fun r => regionBackend r == 0)

/-- The trace `c = a+b; d = a@b; e = a-b` with every operation fusible on the
fusion backend (proxy ids: a = 1, b = 2, c = 3, d = 4, e = 5). -/
def fuseTrace1 : List FOp :=
  [⟨3, [1, 2], 0⟩, ⟨4, [1, 2], 0⟩, ⟨5, [1, 2], 0⟩]

/-- The trace `c = a+b; d = c@b; e = a-c; f = b@a; g = d*e` where the matmuls
`d` and `f` run on the other backend (proxy ids: a = 1, b = 2, c = 3, d = 4,
e = 5, f = 6, g = 7). -/
def fuseTrace2 : List FOp :=
  [⟨3, [1, 2], 0⟩, ⟨4, [3, 2], 1⟩, ⟨5, [1, 3], 0⟩, ⟨6, [2, 1], 1⟩, ⟨7, [4, 5], 0⟩]

/-! ### Bookend hoist (spec section 4.5, step 5)

After merging, purely layout-changing operations at the start of a fused
region whose inputs come wholly from outside the (remaining) region are moved
out before it; symmetrically at the end for layout operations whose outputs
are consumed only outside the region.  Layout operations sandwiched between
non-layout operations stay in place. -/
/-- Modelled from the spec: an operation of a fused region — output proxy id,
input proxy ids, and whether it is purely layout-changing (transpose/view). -/
structure LOp where
  out : Nat
  ins : List Nat
  layout : Bool
deriving DecidableEq

/-- Modelled from the spec: whether proxy `n` is produced inside region `r`. -/
def producedIn (r : List LOp) (n : Nat) : Bool :=
  r.any (fun op => op.out == n)

/-- Modelled from the spec: strip leading layout-only operations whose inputs
all come from outside the remaining region; returns the hoisted prefix and
the remaining region. -/
def hoistFront : List LOp → List LOp × List LOp
  | [] => ([], [])
  | op :: rest =>
    if op.layout && !(op.ins.any (producedIn (op :: rest))) then
      let (h, core) := hoistFront rest
      (op :: h, core)
    else
      ([], op :: rest)

/-- Modelled from the spec: strip, on a reversed region, trailing layout-only
operations whose outputs are consumed only outside the remaining region;
returns the hoisted suffix and the remaining core, both reversed. -/
def stripRev : List LOp → List LOp × List LOp
  | [] => ([], [])
  | op :: rest =>
    if op.layout && !(rest.any (fun o => o.ins.any (fun i => i == op.out))) then
      let (h, core) := stripRev rest
      (op :: h, core)
    else
      ([], op :: rest)

/-- Modelled from the spec: the bookend hoist of one fused region — the
layout operations hoisted out before it, the remaining fused core, and the
layout operations hoisted out after it. -/
def bookend (region : List LOp) : List LOp × List LOp × List LOp :=
  ((hoistFront region).1,
   (stripRev (hoistFront region).2.reverse).2.reverse,
   (stripRev (hoistFront region).2.reverse).1.reverse)

/-- Operations of the literal bookend scenarios.  Proxy ids: the region input
is 0; each operation `i` produces proxy `i + 1`. -/
def lopT0 : LOp := ⟨1, [0], true⟩

def lopA1 : LOp := ⟨2, [1], false⟩

def lopT2 : LOp := ⟨3, [2], true⟩

def lopB3 : LOp := ⟨4, [3], false⟩

def lopT4 : LOp := ⟨5, [4], true⟩

/-- Scenario 1: a leading transpose before two fusible operations. -/
def bkRegion1 : List LOp := [lopT0, ⟨2, [1], false⟩, ⟨3, [2], false⟩]

/-- Scenario 2: a transpose sandwiched between two non-layout operations,
with a leading and a trailing transpose around them. -/
def bkRegion2 : List LOp := [lopT0, lopA1, lopT2, lopB3, lopT4]

/-- Scenario 3: two leading and two trailing transposes around two fusible
operations. -/
def bkRegion3 : List LOp :=
  [⟨1, [0], true⟩, ⟨2, [1], true⟩, ⟨3, [2], false⟩, ⟨4, [3], false⟩,
   ⟨5, [4], true⟩, ⟨6, [5], true⟩]

/-! ### Common-subexpression elimination and dead-code elimination (spec sections 4.2, 4.3)

CSE walks the operations in order, keeping a map from structural key (symbol
id plus substituted argument list) to the earliest producing output; a later
operation with a known key is dropped and every later use of its output is
rewritten to the earlier output.  DCE then walks the list in reverse, keeping
an operation iff one of its outputs is required, adding its inputs to the
required set.  Arguments are proxy names (naturals). -/
/-- Modelled from the spec: a bound operation for the rewrite passes — symbol
id, argument proxy names, output proxy name. -/
structure COp where
  symId : Nat
  args : List Nat
  out : Nat
deriving DecidableEq

/-- Modelled from the spec: the structural key of an operation as written. -/
def origKey (op : COp) : Nat × List Nat := (op.symId, op.args)

/-- Modelled from the spec: the structural key after substituting proxy
renamings into the arguments. -/
def keyUnder (σ : Nat → Nat) (op : COp) : Nat × List Nat :=
  (op.symId, op.args.map σ)

/-- Modelled from the spec: apply a proxy renaming to the arguments. -/
def substArgs (σ : Nat → Nat) (op : COp) : COp :=
  { op with args := op.args.map σ }

/-- Point update of a proxy renaming. -/
def updFn (σ : Nat → Nat) (x y : Nat) : Nat → Nat :=
  fun n => if n = x then y else σ n

/-- Association-list lookup for the CSE key map. -/
def alookup (k : Nat × List Nat) : List ((Nat × List Nat) × Nat) → Option Nat
  | [] => none
  | e :: rest => if e.1 = k then some e.2 else alookup k rest

/-- Map entry recorded for a kept operation. -/
def entryOf (σ : Nat → Nat) (op : COp) : (Nat × List Nat) × Nat :=
  (keyUnder σ op, op.out)

/-- Modelled from the spec: the CSE walk.  Returns the kept (substituted)
operations, the final proxy renaming, and the final key map. -/
def cseGo : List ((Nat × List Nat) × Nat) → (Nat → Nat) → List COp →
    List COp × (Nat → Nat) × List ((Nat × List Nat) × Nat)
  | m, σ, [] => ([], σ, m)
  | m, σ, op :: rest =>
    match alookup (keyUnder σ op) m with
    | some prev => cseGo m (updFn σ op.out prev) rest
    | none =>
      let r := cseGo (entryOf σ op :: m) σ rest
      (substArgs σ op :: r.1, r.2)

/-- Modelled from the spec: CSE over a trace — rewritten operations plus the
trace outputs after renaming. -/
def cse (ts : List COp) (outs : List Nat) : List COp × List Nat :=
  ((cseGo [] id ts).1, outs.map (cseGo [] id ts).2.1)

/-- Modelled from the spec: the reverse DCE walk over the reversed operation
list, with the running set of required proxies. -/
def dceRev : List COp → List Nat → List COp
  | [], _ => []
  | op :: rest, needed =>
    if op.out ∈ needed then op :: dceRev rest (op.args ++ needed)
    else dceRev rest needed

/-- Modelled from the spec: dead-code elimination, preserving the original
relative order of kept operations. -/
def dce (ops : List COp) (outs : List Nat) : List COp :=
  (dceRev ops.reverse outs).reverse

/-- Modelled from the spec: CSE followed by DCE. -/
def cseDce (ts : List COp) (outs : List Nat) : List COp :=
  dce (cse ts outs).1 (cse ts outs).2

/-! ### Signature analysis: get_siginfo (thunder/core/codeutils.py, lines 307-373)

`get_siginfo` binds the call's args/kwargs to the function signature
(`inspect.signature(fn).bind`), augments the bound arguments with the declared
defaults, attaches each parameter's declaration index, dispatches by parameter
kind, and sorts the positional entries by index.  Parameters are modelled as a
list of (name, kind, optional default); values come from an arbitrary type
`V`.  Python dictionaries are modelled as association lists with insertion
order (`update` overwrites in place and appends new keys). -/
/-- Python's `inspect.Parameter` kinds. -/
inductive PKind where
  | posOnly
  | posOrKw
  | varPos
  | kwOnly
  | varKw
deriving DecidableEq

/-- A signature parameter: name, kind, and optional default value. -/
structure PyParam (V : Type) where
  name : String
  kind : PKind
  default : Option V
deriving DecidableEq

/-- A value bound to a parameter: an ordinary value, the tuple captured by a
`*args` parameter, or the dict captured by a `**kwargs` parameter. -/
inductive BoundVal (V : Type) where
  | single (v : V)
  | tup (vs : List V)
  | dictv (kvs : List (String × V))
deriving DecidableEq

/-- Lookup by name in an association list, first match. -/
def lookupBa {W : Type} (n : String) : List (String × W) → Option W
  | [] => none
  | e :: rest => if e.1 = n then some e.2 else lookupBa n rest

/-- Phase one of `Signature.bind`: consume positional arguments against the
parameters in declaration order; a `*args` parameter captures the leftover
arguments; leftover arguments with no parameter to take them are an error. -/
def bindPos {V : Type} : List (PyParam V) → List V →
    Option (List (String × BoundVal V))
  | _, [] => some []
  | [], _ :: _ => none
  | p :: ps, a :: as =>
    match p.kind with
    | .posOnly | .posOrKw =>
      (bindPos ps as).map (fun r => (p.name, .single a) :: r)
    | .varPos => some [(p.name, .tup (a :: as))]
    | .kwOnly => none
    | .varKw => none

/-- Find a parameter by name. -/
def findParam {V : Type} (params : List (PyParam V)) (n : String) :
    Option (PyParam V) :=
  params.find? (fun p => p.name == n)

/-- Phase two of `Signature.bind`: match keyword arguments by name against
`posOrKw`/`kwOnly` parameters; a name already bound is an error; anything
else (unknown names, `posOnly` names) is left over for a `**kwargs`
parameter.  Returns the named bindings and the leftovers. -/
def bindKw {V : Type} (params : List (PyParam V)) :
    List (String × V) → List String →
    Option (List (String × BoundVal V) × List (String × V))
  | [], _ => some ([], [])
  | (k, v) :: rest, bound =>
    match findParam params k with
    | some p =>
      match p.kind with
      | .posOrKw | .kwOnly =>
        if k ∈ bound then none
        else (bindKw params rest (k :: bound)).map
          (fun r => ((k, BoundVal.single v) :: r.1, r.2))
      | _ => (bindKw params rest bound).map (fun r => (r.1, (k, v) :: r.2))
    | none => (bindKw params rest bound).map (fun r => (r.1, (k, v) :: r.2))

/-- Phase three of `Signature.bind`: every required parameter (no default,
not `*args`/`**kwargs`) must be bound. -/
def bindComplete {V : Type} (params : List (PyParam V))
    (ba : List (String × BoundVal V)) : Bool :=
  params.all fun p =>
    match p.kind, p.default with
    | .posOnly, none => (lookupBa p.name ba).isSome
    | .posOrKw, none => (lookupBa p.name ba).isSome
    | .kwOnly, none => (lookupBa p.name ba).isSome
    | _, _ => true

/-- Order the bound arguments in parameter-declaration order, as
`BoundArguments.arguments` presents them. -/
def orderBa {V : Type} (params : List (PyParam V))
    (ba : List (String × BoundVal V)) : List (String × BoundVal V) :=
  params.filterMap fun p => (lookupBa p.name ba).map fun v => (p.name, v)

/-- `inspect.Signature.bind`: returns `BoundArguments.arguments` — the
explicitly bound parameters in declaration order, without defaults — or an
error. -/
def pyBind {V : Type} (params : List (PyParam V)) (args : List V)
    (kwargs : List (String × V)) : Option (List (String × BoundVal V)) :=
  match bindPos params args with
  | none => none
  | some posB =>
    match bindKw params kwargs (posB.map Prod.fst) with
    | none => none
    | some (kwB, extras) =>
      match params.find? (fun p => p.kind == PKind.varKw) with
      | some pk =>
        let all := posB ++ kwB ++
          (if extras.isEmpty then [] else [(pk.name, BoundVal.dictv extras)])
        if bindComplete params all then some (orderBa params all) else none
      | none =>
        if extras.isEmpty then
          if bindComplete params (posB ++ kwB) then
            some (orderBa params (posB ++ kwB))
          else none
        else none

/-- The `SigInfo` record built by `get_siginfo` (the `name` field carries no
algorithmic content and is omitted). -/
structure SigInfoM (V : Type) where
  args : List (String × BoundVal V)
  varargs : Option (String × BoundVal V)
  kwargs : List (String × BoundVal V)
  varkwargs : Option (String × BoundVal V)
  defaultdict : List (String × V)
deriving DecidableEq

/-- The dictionary `{k: v.default for k, v in sig.parameters.items() if
v.default is not Parameter.empty}`. -/
def defaultEntries {V : Type} (params : List (PyParam V)) : List (String × V) :=
  params.filterMap fun p => p.default.map fun d => (p.name, d)

/-- Python `dict.update`: existing keys are overwritten in place, new keys
are appended in the updater's order. -/
def pyUpdate {W : Type} (base upd : List (String × W)) : List (String × W) :=
  base.map (fun e => ((lookupBa e.1 upd).elim e (fun v => (e.1, v)))) ++
    upd.filter (fun e => (lookupBa e.1 base).isNone)

/-- `params_with_indices`: look a parameter up by name together with its
declaration index. -/
def paramIdx {V : Type} (n : String) : Nat → List (PyParam V) →
    Option (PyParam V × Nat)
  | _, [] => none
  | i, p :: ps => if p.name = n then some (p, i) else paramIdx n (i + 1) ps

/-- One row of the `args_dict` iteration: name, bound value, parameter kind,
and declaration index. -/
structure AEntry (V : Type) where
  name : String
  val : BoundVal V
  kind : PKind
  idx : Nat
deriving DecidableEq

/-- Python `sorted(si.args, key=lambda x: x[1])`: sort the positional rows
by declaration index (insertion sort models the stable built-in sort and is
structurally recursive, so it evaluates by computation). -/
def List.sortByIdx {V : Type} (l : List (AEntry V)) : List (AEntry V) :=
  List.insertionSort (fun x y => x.idx ≤ y.idx) l

/-- Embedded from `thunder/core/codeutils.py` (`get_siginfo`): bind the call
to the signature, augment with defaults (`args_dict`), attach parameter
indices, dispatch by parameter kind, and sort the positional entries by
index. -/
def get_siginfo {V : Type} (params : List (PyParam V)) (args : List V)
    (kwargs : List (String × V)) : Option (SigInfoM V) :=
  (pyBind params args kwargs).map fun ba =>
    let default_dict := defaultEntries params
    let args_dict := pyUpdate
      (default_dict.map (fun e => (e.1, BoundVal.single e.2))) ba
    let entries := args_dict.filterMap fun e =>
      (paramIdx e.1 0 params).map fun pi => AEntry.mk e.1 e.2 pi.1.kind pi.2
    let sortedPos := (entries.filter fun e =>
      e.kind == PKind.posOnly || e.kind == PKind.posOrKw).sortByIdx
    { args := sortedPos.map fun e => (e.name, e.val)
      varargs := (entries.find? (fun e => e.kind == PKind.varPos)).map
        fun e => (e.name, e.val)
      kwargs := (entries.filter (fun e => e.kind == PKind.kwOnly)).map
        fun e => (e.name, e.val)
      varkwargs := (entries.find? (fun e => e.kind == PKind.varKw)).map
        fun e => (e.name, e.val)
      defaultdict := default_dict }

/-- Specification-side characterization of the positional rows of
`args_dict`: walking the parameters in declaration order from index `i`,
each positional parameter contributes its bound value, or its default when
unbound; parameters that are neither bound nor defaulted contribute
nothing. -/
def targetEntries {V : Type} (ba : List (String × BoundVal V)) :
    Nat → List (PyParam V) → List (AEntry V)
  | _, [] => []
  | i, p :: ps =>
    let rest := targetEntries ba (i + 1) ps
    if p.kind = PKind.posOnly ∨ p.kind = PKind.posOrKw then
      match lookupBa p.name ba with
      | some v => AEntry.mk p.name v p.kind i :: rest
      | none =>
        match p.default with
        | some d => AEntry.mk p.name (BoundVal.single d) p.kind i :: rest
        | none => rest
    else rest

/-- One `args_dict` row turned into an `AEntry` (the body of the `entries`
computation of `get_siginfo`). -/
def rowG {V : Type} (params : List (PyParam V)) (e : String × BoundVal V) :
    Option (AEntry V) :=
  (paramIdx e.1 0 params).map fun pi => AEntry.mk e.1 e.2 pi.1.kind pi.2

/-- The positional-entry filter of `get_siginfo`. -/
def posP {V : Type} (e : AEntry V) : Bool :=
  e.kind == PKind.posOnly || e.kind == PKind.posOrKw

/-- The positional row contributed by a parameter through the
default-then-update part of `args_dict`. -/
def rowK1 {V : Type} (params : List (PyParam V))
    (ba : List (String × BoundVal V)) (p : PyParam V) : Option (AEntry V) :=
  ((p.default.map fun d => ((p.name : String), BoundVal.single d)).map
      (fun e => (lookupBa e.1 ba).elim e (fun v => (e.1, v)))).bind
    fun e => (rowG params e).filter posP

/-- The positional row contributed by a parameter through the
newly-bound part of `args_dict`. -/
def rowK2 {V : Type} (params : List (PyParam V))
    (ba : List (String × BoundVal V)) (p : PyParam V) : Option (AEntry V) :=
  (((lookupBa p.name ba).map fun v => ((p.name : String), v)).filter
      (fun e => (lookupBa e.1
        ((defaultEntries params).map (fun x => (x.1, BoundVal.single x.2)))).isNone)).bind
    fun e => (rowG params e).filter posP

/-- The combined positional row of a parameter. -/
def rowK {V : Type} (params : List (PyParam V))
    (ba : List (String × BoundVal V)) (p : PyParam V) : Option (AEntry V) :=
  if (rowK1 params ba p).isSome then rowK1 params ba p else rowK2 params ba p

/-- The signature `foo(a, b=5, *, c=7)` used in the closed C10 witness. -/
def witParams : List (PyParam Nat) :=
  [⟨"a", .posOrKw, none⟩, ⟨"b", .posOrKw, some 5⟩, ⟨"c", .kwOnly, some 7⟩]

/-! ### Theorems -/

/-- Fingerprints stored after running from state `s` are exactly the prior
entries plus the fingerprints of the executed calls. -/
theorem entries_foldl_mem (history : List (List CacheArg)) :
    ∀ (s : CacheState) (fp : List FPrint),
      fp ∈ (history.foldl cacheStep s).entries ↔
        fp ∈ s.entries ∨ ∃ c ∈ history, fingerprint c = fp := by
  induction history with
  | nil => simp
  | cons c rest ih =>
    intro s fp
    rw [List.foldl_cons, ih]
    unfold cacheStep
    by_cases h : fingerprint c ∈ s.entries
    · simp only [if_pos h, List.mem_cons]
      constructor
      · rintro (hs | ⟨d, hd, hfp⟩)
        · exact Or.inl hs
        · exact Or.inr ⟨d, Or.inr hd, hfp⟩
      · rintro (hs | ⟨d, (rfl | hd), hfp⟩)
        · exact Or.inl hs
        · exact Or.inl (hfp ▸ h)
        · exact Or.inr ⟨d, hd, hfp⟩
    · simp only [if_neg h, List.mem_cons]
      constructor
      · rintro ((rfl | hs) | ⟨d, hd, hfp⟩)
        · exact Or.inr ⟨c, Or.inl rfl, rfl⟩
        · exact Or.inl hs
        · exact Or.inr ⟨d, Or.inr hd, hfp⟩
      · rintro (hs | ⟨d, (rfl | hd), hfp⟩)
        · exact Or.inl (Or.inr hs)
        · exact Or.inl (Or.inl hfp.symm)
        · exact Or.inr ⟨d, hd, hfp⟩

/-- C1: for `f(a,b) = a+b` under static caching, the call sequence — tensors
`a`,`b` of shape (2,2); the same tensors again; fresh tensors of identical
metadata; a tensor of shape (2,1); a tensor of a different element type; a
floating-point number in place of a tensor — produces cumulative
(misses, hits) counters (1,0), (1,1), (1,2), (2,2), (3,2), (4,2). -/
theorem static_caching_counts_C1 :
    ((runCalls (staticCalls.take 1)).misses = 1 ∧ (runCalls (staticCalls.take 1)).hits = 0) ∧
    ((runCalls (staticCalls.take 2)).misses = 1 ∧ (runCalls (staticCalls.take 2)).hits = 1) ∧
    ((runCalls (staticCalls.take 3)).misses = 1 ∧ (runCalls (staticCalls.take 3)).hits = 2) ∧
    ((runCalls (staticCalls.take 4)).misses = 2 ∧ (runCalls (staticCalls.take 4)).hits = 2) ∧
    ((runCalls (staticCalls.take 5)).misses = 3 ∧ (runCalls (staticCalls.take 5)).hits = 2) ∧
    ((runCalls staticCalls).misses = 4 ∧ (runCalls staticCalls).hits = 2) := by
  decide

/-- C7: the cache fingerprint treats strings by value and generic objects by
identity.  If some earlier call passed a string of value `v` (whatever its
object identity), a new call passing a distinct but equal-valued string object
is a hit; a call passing a generic object whose identity appears nowhere in
the history is always a miss. -/
theorem string_value_object_identity_C7
    (history : List (List CacheArg)) (v : String) (i1 i2 j : Nat)
    (hstr : [CacheArg.strArg v i1] ∈ history)
    (hobj : ∀ call ∈ history, ∀ arg ∈ call, arg ≠ CacheArg.objArg j) :
    ((cacheStep (runCalls history) [CacheArg.strArg v i2]).hits
        = (runCalls history).hits + 1 ∧
     (cacheStep (runCalls history) [CacheArg.strArg v i2]).misses
        = (runCalls history).misses) ∧
    ((cacheStep (runCalls history) [CacheArg.objArg j]).misses
        = (runCalls history).misses + 1 ∧
     (cacheStep (runCalls history) [CacheArg.objArg j]).hits
        = (runCalls history).hits) := by
  have hmemS : fingerprint [CacheArg.strArg v i2] ∈ (runCalls history).entries := by
    rw [runCalls, entries_foldl_mem]
    exact Or.inr ⟨[CacheArg.strArg v i1], hstr, rfl⟩
  have hmemO : fingerprint [CacheArg.objArg j] ∉ (runCalls history).entries := by
    rw [runCalls, entries_foldl_mem]
    rintro (h | ⟨c, hc, hfp⟩)
    · simp [initCache] at h
    · have : ∃ arg ∈ c, fingerprintArg arg = FPrint.objFP j := by
        rcases c with _ | ⟨a0, c0⟩
        · simp [fingerprint] at hfp
        · rcases c0 with _ | ⟨a1, c1⟩
          · exact ⟨a0, by simp, by simpa [fingerprint] using hfp⟩
          · simp [fingerprint] at hfp
      rcases this with ⟨arg, harg, hargfp⟩
      have : arg = CacheArg.objArg j := by
        cases arg <;> simp [fingerprintArg] at hargfp
        simp [hargfp]
      exact hobj c hc arg harg this
  constructor
  · constructor
    · simp [cacheStep, if_pos hmemS]
    · simp [cacheStep, if_pos hmemS]
  · constructor
    · simp [cacheStep, if_neg hmemO]
    · simp [cacheStep, if_neg hmemO]

/-- Closed witness for C7: a one-call history with the string "b", then a hit
on an equal-valued string with another identity and a miss on a fresh
object. -/
theorem string_value_object_identity_C7_witness :
    ([CacheArg.strArg "b" 5] ∈ [[CacheArg.strArg "b" 5]] ∧
     ∀ call ∈ [[CacheArg.strArg "b" 5]], ∀ arg ∈ call, arg ≠ CacheArg.objArg 3) ∧
    (((cacheStep (runCalls [[CacheArg.strArg "b" 5]]) [CacheArg.strArg "b" 7]).hits
        = (runCalls [[CacheArg.strArg "b" 5]]).hits + 1 ∧
      (cacheStep (runCalls [[CacheArg.strArg "b" 5]]) [CacheArg.strArg "b" 7]).misses
        = (runCalls [[CacheArg.strArg "b" 5]]).misses) ∧
     ((cacheStep (runCalls [[CacheArg.strArg "b" 5]]) [CacheArg.objArg 3]).misses
        = (runCalls [[CacheArg.strArg "b" 5]]).misses + 1 ∧
      (cacheStep (runCalls [[CacheArg.strArg "b" 5]]) [CacheArg.objArg 3]).hits
        = (runCalls [[CacheArg.strArg "b" 5]]).hits)) :=
  ⟨⟨by decide, by decide⟩,
   string_value_object_identity_C7 [[CacheArg.strArg "b" 5]] "b" 5 7 3
     (by decide) (by decide)⟩

/-- C9: requesting both the static-fingerprinting cache mode and the
last-executed cache mode simultaneously is a fatal configuration error —
mode resolution errors exactly when both are requested, so neither mode can
silently win. -/
theorem conflicting_cache_modes_C9 :
    (∀ s l : Bool, (∃ e, resolveCacheMode s l = .error e) ↔ (s && l) = true) ∧
    resolveCacheMode true true
      = .error "only one caching mode can be specified" := by
  constructor
  · intro s l
    cases s <;> cases l <;> simp [resolveCacheMode]
  · rfl

theorem digitChar_inj_lt :
    ∀ a, a < 10 → ∀ b, b < 10 → digitChar a = digitChar b → a = b := by
  decide

theorem map_digitChar_inj :
    ∀ l1 l2 : List Nat, (∀ x ∈ l1, x < 10) → (∀ x ∈ l2, x < 10) →
      l1.map digitChar = l2.map digitChar → l1 = l2 := by
  intro l1
  induction l1 with
  | nil => intro l2 _ _ h; cases l2 <;> simp_all
  | cons a t ih =>
    intro l2 h1 h2 h
    cases l2 with
    | nil => simp at h
    | cons b t2 =>
      simp only [List.map_cons, List.cons.injEq] at h
      have ha : a = b :=
        digitChar_inj_lt a (h1 a (by simp)) b (h2 b (by simp)) h.1
      have ht : t = t2 :=
        ih t2 (fun x hx => h1 x (by simp [hx])) (fun x hx => h2 x (by simp [hx])) h.2
      rw [ha, ht]

theorem digits_mem_lt {n d : Nat} (hd : d ∈ Nat.digits 10 n) : d < 10 :=
  Nat.digits_lt_base (by norm_num) hd

theorem natDigitChars_inj :
    ∀ m n : Nat, natDigitChars m = natDigitChars n → m = n := by
  have key : ∀ k : Nat, k ≠ 0 →
      ((Nat.digits 10 k).reverse.map digitChar = ['0'] → False) := by
    intro k hk h
    have hlen : (Nat.digits 10 k).length = 1 := by
      have := congrArg List.length h
      simpa using this
    rcases List.length_eq_one.mp hlen with ⟨d, hdigs⟩
    have hrev : (Nat.digits 10 k).reverse = [d] := by
      rw [hdigs]; simp
    have hdm : d ∈ Nat.digits 10 k := by rw [hdigs]; simp
    have hd10 : d < 10 := digits_mem_lt hdm
    have hchar : digitChar d = '0' := by
      rw [hrev] at h
      simpa using h
    have hd0 : d = 0 := digitChar_inj_lt d hd10 0 (by norm_num) hchar
    have : k = 0 := by
      have := Nat.ofDigits_digits 10 k
      rw [hdigs, hd0] at this
      simpa [Nat.ofDigits] using this.symm
    exact hk this
  intro m n h
  unfold natDigitChars at h
  by_cases hm : m = 0 <;> by_cases hn : n = 0
  · rw [hm, hn]
  · rw [if_pos hm, if_neg hn] at h
    exact absurd h.symm (key n hn)
  · rw [if_neg hm, if_pos hn] at h
    exact absurd h (key m hm)
  · rw [if_neg hm, if_neg hn] at h
    have hrev : (Nat.digits 10 m).reverse = (Nat.digits 10 n).reverse :=
      map_digitChar_inj _ _
        (fun x hx => digits_mem_lt (List.mem_reverse.mp hx))
        (fun x hx => digits_mem_lt (List.mem_reverse.mp hx)) h
    have hdig : Nat.digits 10 m = Nat.digits 10 n :=
      List.reverse_injective hrev
    have := congrArg (Nat.ofDigits 10) hdig
    rwa [Nat.ofDigits_digits, Nat.ofDigits_digits] at this

/-- C8: the first 10,000 generated names are pairwise distinct — for distinct
counters `i`, `j` below 10,000, the generated names differ. -/
theorem name_generation_unique_C8 (i j : Nat)
    (hi : i < 10000) (hj : j < 10000) (hne : i ≠ j) :
    genName i ≠ genName j := by
  intro h
  unfold genName at h
  have hlist : 't' :: natDigitChars i = 't' :: natDigitChars j := by
    have := congrArg String.data h
    simpa using this
  have : natDigitChars i = natDigitChars j := by
    simpa using hlist
  exact hne (natDigitChars_inj i j this)

/-- Closed witness for C8: counters 3 and 5 are below 10,000 and yield
different names. -/
theorem name_generation_unique_C8_witness :
    (3 < 10000 ∧ 5 < 10000 ∧ (3 : Nat) ≠ 5) ∧ genName 3 ≠ genName 5 :=
  ⟨by decide, name_generation_unique_C8 3 5 (by decide) (by decide) (by decide)⟩

theorem canon_eq_iff_valEq : ∀ x y : TVal, canon x = canon y ↔ valEq x y := by
  intro x
  induction x with
  | proxy n sh dt dev => intro y; cases y <;> simp [canon, valEq]
  | numv v => intro y; cases y <;> simp [canon, valEq]
  | strv s => intro y; cases y <;> simp [canon, valEq]
  | nilv => intro y; cases y <;> simp [canon, valEq]
  | consv hd tl ih1 ih2 =>
    intro y
    cases y <;> simp [canon, valEq, ih1, ih2]

theorem map_canon_eq_iff :
    ∀ l1 l2 : List TVal, l1.map canon = l2.map canon ↔ List.Forall₂ valEq l1 l2 := by
  intro l1
  induction l1 with
  | nil => intro l2; cases l2 <;> simp
  | cons a t ih =>
    intro l2
    cases l2 with
    | nil => simp
    | cons b t2 =>
      simp [List.forall₂_cons, canon_eq_iff_valEq, ih]

theorem map_kw_canon_eq_iff :
    ∀ l1 l2 : List (String × TVal),
      l1.map (fun kv => (kv.1, canon kv.2)) = l2.map (fun kv => (kv.1, canon kv.2)) ↔
      List.Forall₂ (fun p q : String × TVal => p.1 = q.1 ∧ valEq p.2 q.2) l1 l2 := by
  intro l1
  induction l1 with
  | nil => intro l2; cases l2 <;> simp
  | cons a t ih =>
    intro l2
    cases l2 with
    | nil => simp
    | cons b t2 =>
      simp [List.forall₂_cons, canon_eq_iff_valEq, ih, Prod.ext_iff, and_assoc]

/-- C2: two bound operations have the same right-hand side iff their symbol id
and their positional and keyword arguments are recursively equal by
value/shape/dtype (proxy names are ignored), and the right-hand-side hash is
consistent with this equality: structurally equal bound operations hash
equal. -/
theorem boundsymbol_rhs_eq_hash_C2 (b1 b2 : BSym) :
    (rhs b1 = rhs b2 ↔ StructEq b1 b2) ∧
    (rhs b1 = rhs b2 → rhsHash b1 = rhsHash b2) := by
  constructor
  · unfold rhs StructEq
    rw [Prod.ext_iff, Prod.ext_iff]
    simp only [map_canon_eq_iff, map_kw_canon_eq_iff]
  · intro h
    unfold rhsHash
    rw [h]

/-- Closed witness for C2: the equivalence and hash consistency instantiated
at two concrete bound operations that differ only in proxy names and symbol
display names. -/
theorem boundsymbol_rhs_eq_hash_C2_witness :
    (rhs (BSym.mk ⟨0, "add"⟩ [.proxy "x" [2, 2] 0 0] [])
        = rhs (BSym.mk ⟨0, "add2"⟩ [.proxy "y" [2, 2] 0 0] []) ↔
      StructEq (BSym.mk ⟨0, "add"⟩ [.proxy "x" [2, 2] 0 0] [])
        (BSym.mk ⟨0, "add2"⟩ [.proxy "y" [2, 2] 0 0] [])) ∧
    (rhs (BSym.mk ⟨0, "add"⟩ [.proxy "x" [2, 2] 0 0] [])
        = rhs (BSym.mk ⟨0, "add2"⟩ [.proxy "y" [2, 2] 0 0] []) →
      rhsHash (BSym.mk ⟨0, "add"⟩ [.proxy "x" [2, 2] 0 0] [])
        = rhsHash (BSym.mk ⟨0, "add2"⟩ [.proxy "y" [2, 2] 0 0] [])) :=
  boundsymbol_rhs_eq_hash_C2 _ _

/-- C6: applying the same symbol once with two positional arguments and once
with the equivalent keyword arguments yields bound operations whose
right-hand-side keys differ — they compare and hash unequal — while the symbol
itself still compares and hashes equal. -/
theorem positional_vs_keyword_C6 (s : OpSym) (a b : TVal) (n1 n2 : String) :
    rhs (BSym.mk s [a, b] []) ≠ rhs (BSym.mk s [] [(n1, a), (n2, b)]) ∧
    rhsHash (BSym.mk s [a, b] []) ≠ rhsHash (BSym.mk s [] [(n1, a), (n2, b)]) ∧
    symEq (BSym.mk s [a, b] []).sym (BSym.mk s [] [(n1, a), (n2, b)]).sym = true ∧
    symHash (BSym.mk s [a, b] []).sym = symHash (BSym.mk s [] [(n1, a), (n2, b)]).sym := by
  refine ⟨?_, ?_, ?_, rfl⟩
  · intro h
    unfold rhs at h
    simp at h
  · intro h
    unfold rhsHash hashRhs rhs at h
    simp only [Nat.pair_eq_pair, List.map_map, List.map_cons, List.map_nil] at h
    have h2 := h.2.1
    unfold encodeNatList at h2
    rw [Nat.pair_eq_pair] at h2
    simp at h2
  · simp [symEq]

/-- C3: partitioning the trace `c=a+b; d=a@b; e=a-b` with all operations
fusible on one backend yields exactly one fused region containing all three
operations; partitioning `c=a+b; d=c@b; e=a-c; f=b@a; g=d*e`, where the
different-backend operation `d=c@b` sits on a dependency path separating the
fusible operations, yields exactly two fused regions, not one. -/
theorem toposort_region_counts_C3 :
    fusedRegions fuseTrace1 = [fuseTrace1] ∧
    (fusedRegions fuseTrace1).length = 1 ∧
    (fusedRegions fuseTrace2).length = 2 := by
  refine ⟨by decide, by decide, by decide⟩

theorem hoistFront_append (region : List LOp) :
    (hoistFront region).1 ++ (hoistFront region).2 = region := by
  induction region with
  | nil => rfl
  | cons op rest ih =>
    unfold hoistFront
    by_cases h : (op.layout && !(op.ins.any (producedIn (op :: rest)))) = true
    · simp only [if_pos h]
      simpa using ih
    · simp only [if_neg h]
      simp

theorem hoistFront_layout (region : List LOp) :
    ∀ op ∈ (hoistFront region).1, op.layout = true := by
  induction region with
  | nil => intro op h; simp [hoistFront] at h
  | cons o rest ih =>
    intro op hmem
    unfold hoistFront at hmem
    by_cases h : (o.layout && !(o.ins.any (producedIn (o :: rest)))) = true
    · simp only [if_pos h] at hmem
      simp only [List.mem_cons] at hmem
      rcases hmem with rfl | hmem
      · exact (Bool.and_eq_true _ _ |>.mp h).1
      · exact ih op hmem
    · simp only [if_neg h] at hmem
      simp at hmem

theorem stripRev_append (region : List LOp) :
    (stripRev region).1 ++ (stripRev region).2 = region := by
  induction region with
  | nil => rfl
  | cons op rest ih =>
    unfold stripRev
    by_cases h : (op.layout && !(rest.any (fun o => o.ins.any (fun i => i == op.out)))) = true
    · simp only [if_pos h]
      simpa using ih
    · simp only [if_neg h]
      simp

theorem stripRev_layout (region : List LOp) :
    ∀ op ∈ (stripRev region).1, op.layout = true := by
  induction region with
  | nil => intro op h; simp [stripRev] at h
  | cons o rest ih =>
    intro op hmem
    unfold stripRev at hmem
    by_cases h : (o.layout && !(rest.any (fun p => p.ins.any (fun i => i == o.out)))) = true
    · simp only [if_pos h] at hmem
      simp only [List.mem_cons] at hmem
      rcases hmem with rfl | hmem
      · exact (Bool.and_eq_true _ _ |>.mp h).1
      · exact ih op hmem
    · simp only [if_neg h] at hmem
      simp at hmem

/-- C4: bookend hoisting moves leading layout-only operations whose inputs
come from outside the region, and trailing layout-only operations whose
outputs are consumed only outside, out of the fused region, while a
layout-only operation sandwiched between two non-layout operations stays
inside.  Generally the hoisted prefix and suffix consist of layout operations
only and the region is exactly partitioned; in the literal scenarios, a
leading transpose before two fusible operations is hoisted, a sandwiched
transpose stays inside the core, and two leading plus two trailing transposes
around two fusible operations yield four hoisted layout operations. -/
theorem bookend_hoist_C4 :
    (∀ region : List LOp,
      (bookend region).1 ++ (bookend region).2.1 ++ (bookend region).2.2 = region ∧
      (∀ op ∈ (bookend region).1, op.layout = true) ∧
      (∀ op ∈ (bookend region).2.2, op.layout = true)) ∧
    bookend bkRegion1 = ([lopT0], [⟨2, [1], false⟩, ⟨3, [2], false⟩], []) ∧
    bookend bkRegion2 = ([lopT0], [lopA1, lopT2, lopB3], [lopT4]) ∧
    ((bookend bkRegion3).1.length + (bookend bkRegion3).2.2.length = 4 ∧
      (bookend bkRegion3).2.1 = [⟨3, [2], false⟩, ⟨4, [3], false⟩]) := by
  refine ⟨?_, by decide, by decide, by decide⟩
  intro region
  refine ⟨?_, ?_, ?_⟩
  · have h1 := hoistFront_append region
    have h2 := stripRev_append (hoistFront region).2.reverse
    have h3 : (stripRev (hoistFront region).2.reverse).2.reverse ++
        (stripRev (hoistFront region).2.reverse).1.reverse
        = (hoistFront region).2 := by
      rw [← List.reverse_append, h2, List.reverse_reverse]
    show (hoistFront region).1 ++
        (stripRev (hoistFront region).2.reverse).2.reverse ++
        (stripRev (hoistFront region).2.reverse).1.reverse = region
    rw [List.append_assoc, h3, h1]
  · exact hoistFront_layout region
  · intro op hmem
    have : op ∈ (stripRev (hoistFront region).2.reverse).1 := by
      simpa [bookend] using hmem
    exact stripRev_layout _ op this

theorem keyUnder_id (op : COp) : keyUnder id op = origKey op := by
  simp [keyUnder, origKey]

theorem substArgs_id (op : COp) : substArgs id op = op := by
  simp [substArgs]

theorem alookup_none_of_no_key (k : Nat × List Nat) :
    ∀ m : List ((Nat × List Nat) × Nat), (∀ e ∈ m, e.1 ≠ k) → alookup k m = none := by
  intro m
  induction m with
  | nil => intro _; rfl
  | cons e rest ih =>
    intro h
    unfold alookup
    rw [if_neg (h e (by simp))]
    exact ih (fun e' he' => h e' (by simp [he']))

theorem alookup_append (k : Nat × List Nat) :
    ∀ xs ys : List ((Nat × List Nat) × Nat),
      alookup k (xs ++ ys) =
        match alookup k xs with
        | some v => some v
        | none => alookup k ys := by
  intro xs
  induction xs with
  | nil => intro ys; rfl
  | cons e rest ih =>
    intro ys
    have l1 : alookup k (e :: (rest ++ ys))
        = if e.1 = k then some e.2 else alookup k (rest ++ ys) := rfl
    have l2 : alookup k (e :: rest)
        = if e.1 = k then some e.2 else alookup k rest := rfl
    rw [List.cons_append, l1, l2]
    by_cases h : e.1 = k
    · rw [if_pos h, if_pos h]
    · rw [if_neg h, if_neg h]
      exact ih ys

theorem alookup_some_mem (k : Nat × List Nat) (v : Nat) :
    ∀ m : List ((Nat × List Nat) × Nat),
      alookup k m = some v → ∃ e ∈ m, e.1 = k ∧ e.2 = v := by
  intro m
  induction m with
  | nil => intro h; simp [alookup] at h
  | cons e rest ih =>
    intro h
    unfold alookup at h
    by_cases he : e.1 = k
    · rw [if_pos he] at h
      exact ⟨e, by simp, he, by simpa using h⟩
    · rw [if_neg he] at h
      rcases ih h with ⟨e', he', hk, hv⟩
      exact ⟨e', by simp [he'], hk, hv⟩

theorem cseGo_append (l1 : List COp) :
    ∀ (m : List ((Nat × List Nat) × Nat)) (σ : Nat → Nat) (l2 : List COp),
      cseGo m σ (l1 ++ l2) =
        ((cseGo m σ l1).1 ++ (cseGo (cseGo m σ l1).2.2 (cseGo m σ l1).2.1 l2).1,
         (cseGo (cseGo m σ l1).2.2 (cseGo m σ l1).2.1 l2).2) := by
  induction l1 with
  | nil => intro m σ l2; simp [cseGo]
  | cons op rest ih =>
    intro m σ l2
    rw [List.cons_append]
    show cseGo m σ (op :: (rest ++ l2)) = _
    cases h : alookup (keyUnder σ op) m with
    | some prev =>
      have e1 : cseGo m σ (op :: (rest ++ l2))
          = cseGo m (updFn σ op.out prev) (rest ++ l2) := by
        simp [cseGo, h]
      have e2 : cseGo m σ (op :: rest)
          = cseGo m (updFn σ op.out prev) rest := by
        simp [cseGo, h]
      rw [e1, e2, ih]
    | none =>
      have e1 : cseGo m σ (op :: (rest ++ l2))
          = (substArgs σ op :: (cseGo (entryOf σ op :: m) σ (rest ++ l2)).1,
             (cseGo (entryOf σ op :: m) σ (rest ++ l2)).2) := by
        simp [cseGo, h]
      have e2 : cseGo m σ (op :: rest)
          = (substArgs σ op :: (cseGo (entryOf σ op :: m) σ rest).1,
             (cseGo (entryOf σ op :: m) σ rest).2) := by
        simp [cseGo, h]
      rw [e1, e2, ih]
      simp

theorem cseGo_nodrop (l : List COp) :
    ∀ (m : List ((Nat × List Nat) × Nat)) (σ : Nat → Nat),
      (∀ op ∈ l, alookup (keyUnder σ op) m = none) →
      (l.map (keyUnder σ)).Nodup →
      cseGo m σ l = (l.map (substArgs σ), σ, (l.map (entryOf σ)).reverse ++ m) := by
  induction l with
  | nil => intro m σ _ _; simp [cseGo]
  | cons op rest ih =>
    intro m σ hnone hnodup
    have h : alookup (keyUnder σ op) m = none := hnone op (by simp)
    have e1 : cseGo m σ (op :: rest)
        = (substArgs σ op :: (cseGo (entryOf σ op :: m) σ rest).1,
           (cseGo (entryOf σ op :: m) σ rest).2) := by
      simp [cseGo, h]
    have hkey : keyUnder σ op ∉ rest.map (keyUnder σ) := by
      have := hnodup
      simp only [List.map_cons, List.nodup_cons] at this
      exact this.1
    have hnone2 : ∀ op' ∈ rest, alookup (keyUnder σ op') (entryOf σ op :: m) = none := by
      intro op' hop'
      have hne : (entryOf σ op).1 ≠ keyUnder σ op' := by
        simp only [entryOf]
        intro hc
        exact hkey (hc ▸ List.mem_map_of_mem (keyUnder σ) hop')
      show alookup (keyUnder σ op') (entryOf σ op :: m) = none
      have : alookup (keyUnder σ op') (entryOf σ op :: m)
          = if (entryOf σ op).1 = keyUnder σ op' then some (entryOf σ op).2
            else alookup (keyUnder σ op') m := rfl
      rw [this, if_neg hne]
      exact hnone op' (by simp [hop'])
    have hnodup2 : (rest.map (keyUnder σ)).Nodup := by
      simp only [List.map_cons, List.nodup_cons] at hnodup
      exact hnodup.2
    rw [e1, ih (entryOf σ op :: m) σ hnone2 hnodup2]
    simp

theorem cseGo_post (n1 n2 : Nat) (l : List COp) :
    ∀ (m : List ((Nat × List Nat) × Nat)) (σ : Nat → Nat),
      (∀ x, σ x ≠ n2) →
      σ n2 = n1 →
      (∀ e ∈ m, e.2 ≠ n2) →
      (∀ op ∈ l, op.out ≠ n2) →
      (∀ r ∈ (cseGo m σ l).1,
          r.out ≠ n2 ∧ n2 ∉ r.args ∧
          ∃ op ∈ l, ∃ σ' : Nat → Nat,
            r.out = op.out ∧ r.symId = op.symId ∧ r.args = op.args.map σ' ∧
            σ' n2 = n1 ∧ (∀ x, σ' x ≠ n2)) ∧
      (cseGo m σ l).2.1 n2 = n1 := by
  induction l with
  | nil =>
    intro m σ h1 h2 _ _
    exact ⟨by simp [cseGo], by simpa [cseGo] using h2⟩
  | cons op rest ih =>
    intro m σ h1 h2 h3 h4
    cases h : alookup (keyUnder σ op) m with
    | some prev =>
      have e1 : cseGo m σ (op :: rest) = cseGo m (updFn σ op.out prev) rest := by
        simp [cseGo, h]
      have hprev : prev ≠ n2 := by
        rcases alookup_some_mem _ _ m h with ⟨e, he, _, hv⟩
        exact hv ▸ h3 e he
      have hop : op.out ≠ n2 := h4 op (by simp)
      have h1' : ∀ x, updFn σ op.out prev x ≠ n2 := by
        intro x
        unfold updFn
        by_cases hx : x = op.out
        · rw [if_pos hx]; exact hprev
        · rw [if_neg hx]; exact h1 x
      have h2' : updFn σ op.out prev n2 = n1 := by
        unfold updFn
        rw [if_neg (fun hc => hop hc.symm)]
        exact h2
      have h4' : ∀ q ∈ rest, q.out ≠ n2 := fun q hq => h4 q (by simp [hq])
      rcases ih m (updFn σ op.out prev) h1' h2' h3 h4' with ⟨ha, hb⟩
      rw [e1]
      refine ⟨?_, hb⟩
      intro r hr
      rcases ha r hr with ⟨x1, x2, q, hq, rest'⟩
      exact ⟨x1, x2, q, by simp [hq], rest'⟩
    | none =>
      have e1 : cseGo m σ (op :: rest)
          = (substArgs σ op :: (cseGo (entryOf σ op :: m) σ rest).1,
             (cseGo (entryOf σ op :: m) σ rest).2) := by
        simp [cseGo, h]
      have hop : op.out ≠ n2 := h4 op (by simp)
      have h3' : ∀ e ∈ entryOf σ op :: m, e.2 ≠ n2 := by
        intro e he
        rcases List.mem_cons.mp he with rfl | he'
        · exact hop
        · exact h3 e he'
      have h4' : ∀ q ∈ rest, q.out ≠ n2 := fun q hq => h4 q (by simp [hq])
      rcases ih (entryOf σ op :: m) σ h1 h2 h3' h4' with ⟨ha, hb⟩
      rw [e1]
      constructor
      · intro r hr
        simp only [List.mem_cons] at hr
        rcases hr with rfl | hr
        · refine ⟨hop, ?_, op, by simp, σ, rfl, rfl, rfl, h2, h1⟩
          simp only [substArgs, List.mem_map]
          rintro ⟨x, _, hx⟩
          exact h1 x hx
        · rcases ha r hr with ⟨x1, x2, q, hq, rest'⟩
          exact ⟨x1, x2, q, by simp [hq], rest'⟩
      · exact hb

theorem dceRev_sublist (l : List COp) :
    ∀ needed : List Nat, List.Sublist (dceRev l needed) l := by
  induction l with
  | nil => intro needed; simp [dceRev]
  | cons op rest ih =>
    intro needed
    unfold dceRev
    by_cases h : op.out ∈ needed
    · rw [if_pos h]
      exact (ih (op.args ++ needed)).cons₂ op
    · rw [if_neg h]
      exact (ih needed).cons op

theorem dceRev_keeps (l : List COp) :
    ∀ (needed : List Nat) (op : COp), op ∈ l → op.out ∈ needed →
      op ∈ dceRev l needed := by
  induction l with
  | nil => intro _ _ h; simp at h
  | cons o rest ih =>
    intro needed op hmem hout
    unfold dceRev
    rcases List.mem_cons.mp hmem with rfl | hmem'
    · rw [if_pos hout]
      exact List.mem_cons_self _ _
    · by_cases h : o.out ∈ needed
      · rw [if_pos h]
        exact List.mem_cons_of_mem o
          (ih (o.args ++ needed) op hmem' (List.mem_append_right _ hout))
      · rw [if_neg h]
        exact ih needed op hmem' hout

/-- C5: for a trace containing two structurally identical operations (same
symbol id and same argument values) in an otherwise duplicate-free,
well-formed trace (unique proxy names, no forward references) whose duplicate
output is live, running CSE followed by DCE leaves exactly one of the two
operations — the earlier one — in the trace, and every surviving downstream
consumer of the removed operation's output references the surviving
operation's output in its place. -/
theorem cse_dce_deduplication_C5
    (pre mid post : List COp) (op1 op2 : COp) (outs : List Nat)
    (hkey : origKey op1 = origKey op2)
    (hdistinct : (((pre ++ op1 :: mid) ++ post).map origKey).Nodup)
    (houts : ∀ op ∈ pre ++ mid ++ post, op.out ≠ op1.out ∧ op.out ≠ op2.out)
    (hne : op1.out ≠ op2.out)
    (hsep : ∀ op ∈ pre ++ op1 :: mid, ∀ q ∈ post, op.out ≠ q.out)
    (hpostout : (post.map COp.out).Nodup)
    (hlive : op2.out ∈ outs)
    (hnofwd : ∀ op ∈ pre ++ op1 :: mid, op2.out ∉ op.args) :
    op1 ∈ cseDce (pre ++ op1 :: mid ++ op2 :: post) outs ∧
    (cseDce (pre ++ op1 :: mid ++ op2 :: post) outs).countP
        (fun r => r.out == op1.out || r.out == op2.out) = 1 ∧
    (∀ r ∈ cseDce (pre ++ op1 :: mid ++ op2 :: post) outs, r.out ≠ op2.out) ∧
    (∀ r ∈ cseDce (pre ++ op1 :: mid ++ op2 :: post) outs, op2.out ∉ r.args) ∧
    (∀ r ∈ cseDce (pre ++ op1 :: mid ++ op2 :: post) outs, ∀ q ∈ post,
      r.out = q.out → ∀ k, q.args.get? k = some op2.out →
        r.args.get? k = some op1.out) := by
  have hsplit : pre ++ op1 :: mid ++ op2 :: post
      = (pre ++ op1 :: mid) ++ (op2 :: post) := by simp
  -- step 1: the prefix and the first duplicate are kept unchanged
  have hkeymap : (pre ++ op1 :: mid).map (keyUnder id)
      = (pre ++ op1 :: mid).map origKey :=
    List.map_congr_left (fun op _ => keyUnder_id op)
  have hentmap : (pre ++ op1 :: mid).map (entryOf id)
      = (pre ++ op1 :: mid).map (fun op => (origKey op, op.out)) :=
    List.map_congr_left (fun op _ => by simp [entryOf, keyUnder_id])
  have hl1nodup : ((pre ++ op1 :: mid).map origKey).Nodup := by
    rw [List.map_append] at hdistinct
    exact hdistinct.of_append_left
  have hA : cseGo [] id (pre ++ op1 :: mid)
      = ((pre ++ op1 :: mid).map (substArgs id), id,
         ((pre ++ op1 :: mid).map (entryOf id)).reverse ++ []) :=
    cseGo_nodrop _ _ _ (fun op _ => rfl) (hkeymap ▸ hl1nodup)
  have hmapid : (pre ++ op1 :: mid).map (substArgs id) = pre ++ op1 :: mid := by
    rw [List.map_congr_left (fun op _ => substArgs_id op)]
    simp
  have hA' : cseGo [] id (pre ++ op1 :: mid)
      = (pre ++ op1 :: mid, id,
         ((pre ++ op1 :: mid).map (fun op => (origKey op, op.out))).reverse) := by
    rw [hA, hmapid, hentmap, List.append_nil]
  -- step 2: the second duplicate is found in the key map
  have hmidkey : origKey op1 ∉ mid.map origKey := by
    have h1 : (pre.map origKey ++ origKey op1 :: mid.map origKey).Nodup := by
      simpa using hl1nodup
    have h2 : (origKey op1 :: mid.map origKey).Nodup := h1.of_append_right
    exact (List.nodup_cons.mp h2).1
  have hlook : alookup (keyUnder id op2)
      (((pre ++ op1 :: mid).map (fun op => (origKey op, op.out))).reverse)
      = some op1.out := by
    have hk2 : keyUnder id op2 = origKey op1 := by rw [keyUnder_id, hkey]
    rw [hk2]
    have hmexp : ((pre ++ op1 :: mid).map (fun op => (origKey op, op.out))).reverse
        = (mid.map (fun op => (origKey op, op.out))).reverse ++
          (((origKey op1, op1.out)) ::
            (pre.map (fun op => (origKey op, op.out))).reverse) := by
      simp
    rw [hmexp, alookup_append]
    have hnonemid : alookup (origKey op1)
        ((mid.map (fun op => (origKey op, op.out))).reverse) = none := by
      apply alookup_none_of_no_key
      intro e he
      rw [List.mem_reverse, List.mem_map] at he
      rcases he with ⟨q, hq, rfl⟩
      intro hc
      exact hmidkey (hc ▸ List.mem_map_of_mem origKey hq)
    rw [hnonemid]
    show alookup (origKey op1) (((origKey op1, op1.out)) :: _) = some op1.out
    have : alookup (origKey op1) (((origKey op1, op1.out)) ::
        (pre.map (fun op => (origKey op, op.out))).reverse)
        = if ((origKey op1, op1.out) : (Nat × List Nat) × Nat).1 = origKey op1
          then some ((origKey op1, op1.out) : (Nat × List Nat) × Nat).2
          else alookup (origKey op1)
            ((pre.map (fun op => (origKey op, op.out))).reverse) := rfl
    rw [this, if_pos rfl]
  -- step 3: apply the post-segment invariants
  have hBpre := cseGo_post op1.out op2.out post
    (((pre ++ op1 :: mid).map (fun op => (origKey op, op.out))).reverse)
    (updFn id op2.out op1.out)
    (by
      intro x
      unfold updFn
      by_cases hx : x = op2.out
      · rw [if_pos hx]; exact hne
      · rw [if_neg hx]; exact hx)
    (by unfold updFn; rw [if_pos rfl])
    (by
      intro e he
      rw [List.mem_reverse, List.mem_map] at he
      rcases he with ⟨q, hq, rfl⟩
      show q.out ≠ op2.out
      rcases List.mem_append.mp hq with hq1 | hq2
      · exact (houts q (by simp [hq1])).2
      · rcases List.mem_cons.mp hq2 with rfl | hq3
        · exact hne
        · exact (houts q (by simp [hq3])).2)
    (fun q hq => (houts q (by simp [hq])).2)
  -- step 4: assemble the CSE result
  have hstep : cseGo
      (((pre ++ op1 :: mid).map (fun op => (origKey op, op.out))).reverse) id
      (op2 :: post)
      = cseGo (((pre ++ op1 :: mid).map (fun op => (origKey op, op.out))).reverse)
          (updFn id op2.out op1.out) post := by
    have e : cseGo
        (((pre ++ op1 :: mid).map (fun op => (origKey op, op.out))).reverse) id
        (op2 :: post)
        = match alookup (keyUnder id op2)
            (((pre ++ op1 :: mid).map (fun op => (origKey op, op.out))).reverse) with
          | some prev =>
            cseGo (((pre ++ op1 :: mid).map (fun op => (origKey op, op.out))).reverse)
              (updFn id op2.out prev) post
          | none =>
            (substArgs id op2 ::
              (cseGo (entryOf id op2 ::
                ((pre ++ op1 :: mid).map (fun op => (origKey op, op.out))).reverse)
                id post).1,
             (cseGo (entryOf id op2 ::
                ((pre ++ op1 :: mid).map (fun op => (origKey op, op.out))).reverse)
                id post).2) := rfl
    rw [e, hlook]
  have hcse : cseGo [] id (pre ++ op1 :: mid ++ op2 :: post)
      = (((pre ++ op1 :: mid) ++ (cseGo
            (((pre ++ op1 :: mid).map (fun op => (origKey op, op.out))).reverse)
            (updFn id op2.out op1.out) post).1),
         (cseGo (((pre ++ op1 :: mid).map (fun op => (origKey op, op.out))).reverse)
            (updFn id op2.out op1.out) post).2) := by
    rw [hsplit, cseGo_append, hA']
    rw [hstep]
  set PR := (cseGo
      (((pre ++ op1 :: mid).map (fun op => (origKey op, op.out))).reverse)
      (updFn id op2.out op1.out) post).1 with hPRdef
  set sfin := (cseGo
      (((pre ++ op1 :: mid).map (fun op => (origKey op, op.out))).reverse)
      (updFn id op2.out op1.out) post).2.1 with hsfindef
  have hres : cseDce (pre ++ op1 :: mid ++ op2 :: post) outs
      = (dceRev ((pre ++ op1 :: mid) ++ PR).reverse (outs.map sfin)).reverse := by
    unfold cseDce dce cse
    rw [hcse]
  have hf1 : sfin op2.out = op1.out := hBpre.2
  have hf2 : op1.out ∈ outs.map sfin := List.mem_map.mpr ⟨op2.out, hlive, hf1⟩
  have hsub : List.Sublist
      ((dceRev ((pre ++ op1 :: mid) ++ PR).reverse (outs.map sfin)).reverse)
      ((pre ++ op1 :: mid) ++ PR) := by
    have s1 := dceRev_sublist (((pre ++ op1 :: mid) ++ PR).reverse) (outs.map sfin)
    have s2 := s1.reverse
    rwa [List.reverse_reverse] at s2
  have hop1l1 : op1 ∈ pre ++ op1 :: mid :=
    List.mem_append.mpr (Or.inr (List.mem_cons_self op1 mid))
  have hmem1 : op1 ∈ (dceRev ((pre ++ op1 :: mid) ++ PR).reverse (outs.map sfin)).reverse := by
    rw [List.mem_reverse]
    exact dceRev_keeps _ _ op1
      (List.mem_reverse.mpr (List.mem_append.mpr (Or.inl hop1l1))) hf2
  -- characterization of members of the CSE result
  have hchar : ∀ r ∈ (pre ++ op1 :: mid) ++ PR,
      r = op1 ∨ ((r.out ≠ op1.out ∧ r.out ≠ op2.out) ∧ r ∈ pre ++ op1 :: mid) ∨ r ∈ PR := by
    intro r hr
    rcases List.mem_append.mp hr with hr1 | hr2
    · rcases List.mem_append.mp hr1 with hp | hq
      · exact Or.inr (Or.inl ⟨houts r (by simp [hp]), hr1⟩)
      · rcases List.mem_cons.mp hq with rfl | hm
        · exact Or.inl rfl
        · exact Or.inr (Or.inl ⟨houts r (by simp [hm]), hr1⟩)
    · exact Or.inr (Or.inr hr2)
  have hPRout : ∀ r ∈ PR, r.out ≠ op1.out ∧ r.out ≠ op2.out := by
    intro r hr
    rcases hBpre.1 r hr with ⟨hn2, _, q, hq, _, hout, _⟩
    refine ⟨?_, hn2⟩
    rw [hout]
    exact (houts q (by simp [hq])).1
  refine ⟨?_, ?_, ?_, ?_, ?_⟩
  · rw [hres]; exact hmem1
  · rw [hres]
    have hcount2 : ((pre ++ op1 :: mid) ++ PR).countP
        (fun r => r.out == op1.out || r.out == op2.out) = 1 := by
      rw [List.countP_append, List.countP_append]
      have c1 : pre.countP (fun r => r.out == op1.out || r.out == op2.out) = 0 := by
        rw [List.countP_eq_zero]
        intro r hr
        have := houts r (by simp [hr])
        simp [this.1, this.2]
      have c2 : mid.countP (fun r => r.out == op1.out || r.out == op2.out) = 0 := by
        rw [List.countP_eq_zero]
        intro r hr
        have := houts r (by simp [hr])
        simp [this.1, this.2]
      have c3 : PR.countP (fun r => r.out == op1.out || r.out == op2.out) = 0 := by
        rw [List.countP_eq_zero]
        intro r hr
        have := hPRout r hr
        simp [this.1, this.2]
      have c4 : (op1 :: mid).countP (fun r => r.out == op1.out || r.out == op2.out)
          = 1 := by
        rw [List.countP_cons_of_pos _ _ (by simp), c2]
      rw [c1, c3, c4]
    have hle := hsub.countP_le (fun r => r.out == op1.out || r.out == op2.out)
    rw [hcount2] at hle
    have hpos : 0 < ((dceRev ((pre ++ op1 :: mid) ++ PR).reverse
        (outs.map sfin)).reverse).countP
        (fun r => r.out == op1.out || r.out == op2.out) :=
      List.countP_pos_iff.mpr ⟨op1, hmem1, by simp⟩
    omega
  · rw [hres]
    intro r hr
    rcases hchar r (hsub.subset hr) with rfl | ⟨⟨_, h2⟩, _⟩ | hpr
    · exact hne
    · exact h2
    · exact (hPRout r hpr).2
  · rw [hres]
    intro r hr
    rcases hchar r (hsub.subset hr) with rfl | ⟨_, hl1⟩ | hpr
    · exact hnofwd r hop1l1
    · exact hnofwd r hl1
    · exact (hBpre.1 r hpr).2.1
  · rw [hres]
    intro r hr q hq heq k hk
    rcases hchar r (hsub.subset hr) with rfl | ⟨_, hl1⟩ | hpr
    · exact absurd heq (hsep r hop1l1 q hq)
    · exact absurd heq (hsep r hl1 q hq)
    · rcases hBpre.1 r hpr with ⟨_, _, p, hp, σ', hout, _, hargs, hσn, _⟩
      have hpq : p = q :=
        List.inj_on_of_nodup_map hpostout hp hq (by rw [← hout, heq])
      subst hpq
      rw [hargs, List.get?_map, hk]
      simp [hσn]

/-- Closed witness for C5: a five-operation trace with one duplicated
operation; all hypotheses are discharged by computation and the theorem is
applied at these inputs. -/
theorem cse_dce_deduplication_C5_witness :
    ((⟨0, [10, 11], 3⟩ : COp).out ∈ [3, 4] ∧
     origKey (⟨0, [10, 11], 1⟩ : COp) = origKey (⟨0, [10, 11], 3⟩ : COp)) ∧
    ((⟨0, [10, 11], 1⟩ : COp) ∈
        cseDce ([] ++ (⟨0, [10, 11], 1⟩ : COp) :: [⟨1, [10], 2⟩] ++
          (⟨0, [10, 11], 3⟩ : COp) :: [⟨2, [3, 2], 4⟩]) [3, 4] ∧
     (cseDce ([] ++ (⟨0, [10, 11], 1⟩ : COp) :: [⟨1, [10], 2⟩] ++
          (⟨0, [10, 11], 3⟩ : COp) :: [⟨2, [3, 2], 4⟩]) [3, 4]).countP
        (fun r => r.out == (⟨0, [10, 11], 1⟩ : COp).out ||
          r.out == (⟨0, [10, 11], 3⟩ : COp).out) = 1 ∧
     (∀ r ∈ cseDce ([] ++ (⟨0, [10, 11], 1⟩ : COp) :: [⟨1, [10], 2⟩] ++
          (⟨0, [10, 11], 3⟩ : COp) :: [⟨2, [3, 2], 4⟩]) [3, 4],
        r.out ≠ (⟨0, [10, 11], 3⟩ : COp).out) ∧
     (∀ r ∈ cseDce ([] ++ (⟨0, [10, 11], 1⟩ : COp) :: [⟨1, [10], 2⟩] ++
          (⟨0, [10, 11], 3⟩ : COp) :: [⟨2, [3, 2], 4⟩]) [3, 4],
        (⟨0, [10, 11], 3⟩ : COp).out ∉ r.args) ∧
     (∀ r ∈ cseDce ([] ++ (⟨0, [10, 11], 1⟩ : COp) :: [⟨1, [10], 2⟩] ++
          (⟨0, [10, 11], 3⟩ : COp) :: [⟨2, [3, 2], 4⟩]) [3, 4],
        ∀ q ∈ [(⟨2, [3, 2], 4⟩ : COp)], r.out = q.out →
          ∀ k, q.args.get? k = some (⟨0, [10, 11], 3⟩ : COp).out →
            r.args.get? k = some (⟨0, [10, 11], 1⟩ : COp).out)) :=
  ⟨⟨by decide, by decide⟩,
   cse_dce_deduplication_C5 [] [⟨1, [10], 2⟩] [⟨2, [3, 2], 4⟩]
     ⟨0, [10, 11], 1⟩ ⟨0, [10, 11], 3⟩ [3, 4]
     (by decide) (by decide) (by decide) (by decide) (by decide)
     (by decide) (by decide) (by decide)⟩

theorem lookupBa_eq_none {W : Type} (n : String) :
    ∀ l : List (String × W), (∀ e ∈ l, e.1 ≠ n) → lookupBa n l = none := by
  intro l
  induction l with
  | nil => intro _; rfl
  | cons e rest ih =>
    intro h
    show (if e.1 = n then some e.2 else lookupBa n rest) = none
    rw [if_neg (h e (by simp))]
    exact ih (fun e' he' => h e' (by simp [he']))

theorem lookupBa_filterMap_name {V W : Type} (f : PyParam V → Option W) :
    ∀ (params : List (PyParam V)) (p : PyParam V), p ∈ params →
      (params.map PyParam.name).Nodup →
      lookupBa p.name
        (params.filterMap fun q => (f q).map (fun w => (q.name, w))) = f p := by
  intro params
  induction params with
  | nil => intro p hp; simp at hp
  | cons q rest ih =>
    intro p hp hnodup
    have hqn : q.name ∉ rest.map PyParam.name := by
      simp only [List.map_cons, List.nodup_cons] at hnodup
      exact hnodup.1
    have hrest : (rest.map PyParam.name).Nodup := by
      simp only [List.map_cons, List.nodup_cons] at hnodup
      exact hnodup.2
    rcases List.mem_cons.mp hp with rfl | hp'
    · cases hf : f p with
      | some w =>
        simp only [List.filterMap_cons, hf, Option.map_some']
        simp [lookupBa]
      | none =>
        simp only [List.filterMap_cons, hf, Option.map_none']
        apply lookupBa_eq_none
        intro e he
        rcases List.mem_filterMap.mp he with ⟨q', hq', hfq'⟩
        cases hfq2 : f q' with
        | some w' =>
          rw [hfq2] at hfq'
          simp only [Option.map_some', Option.some.injEq] at hfq'
          rw [← hfq']
          intro hc
          exact hqn (hc ▸ List.mem_map_of_mem PyParam.name hq')
        | none => rw [hfq2] at hfq'; simp at hfq'
    · have hpq : q.name ≠ p.name := by
        intro hc
        exact hqn (hc ▸ List.mem_map_of_mem PyParam.name hp')
      cases hf : f q with
      | some w =>
        simp only [List.filterMap_cons, hf, Option.map_some']
        have hstep2 : lookupBa p.name ((q.name, w) ::
            rest.filterMap (fun q => (f q).map (fun w => (q.name, w))))
            = lookupBa p.name
              (rest.filterMap (fun q => (f q).map (fun w => (q.name, w)))) := by
          simp [lookupBa, hpq]
        rw [hstep2]
        exact ih p hp' hrest
      | none =>
        simp only [List.filterMap_cons, hf, Option.map_none']
        exact ih p hp' hrest

theorem paramIdx_at_position {V : Type} :
    ∀ (ps : List (PyParam V)) (i j : Nat) (p : PyParam V),
      ps[j]? = some p → (ps.map PyParam.name).Nodup →
      paramIdx p.name i ps = some (p, i + j) := by
  intro ps
  induction ps with
  | nil => intro i j p h; simp at h
  | cons q rest ih =>
    intro i j p hj hnodup
    have hqn : q.name ∉ rest.map PyParam.name := by
      simp only [List.map_cons, List.nodup_cons] at hnodup
      exact hnodup.1
    have hrest : (rest.map PyParam.name).Nodup := by
      simp only [List.map_cons, List.nodup_cons] at hnodup
      exact hnodup.2
    cases j with
    | zero =>
      simp only [List.getElem?_cons_zero, Option.some.injEq] at hj
      subst hj
      show (if q.name = q.name then some (q, i) else _) = some (q, i + 0)
      rw [if_pos rfl]
      simp
    | succ j' =>
      simp only [List.getElem?_cons_succ] at hj
      have hp' : p ∈ rest := by
        have := List.getElem?_eq_some_iff.mp hj
        rcases this with ⟨hlt, hget⟩
        exact hget ▸ List.getElem_mem hlt
      have hpq : q.name ≠ p.name := by
        intro hc
        exact hqn (hc ▸ List.mem_map_of_mem PyParam.name hp')
      show (if q.name = p.name then some (q, i) else paramIdx p.name (i + 1) rest)
          = some (p, i + (j' + 1))
      rw [if_neg hpq, ih (i + 1) j' p hj hrest]
      congr 1
      ext
      · rfl
      · show i + 1 + j' = i + (j' + 1)
        omega

theorem filterMap_append_perm {α β : Type} (f g h : α → Option β)
    (l : List α)
    (hdisj : ∀ a ∈ l, (f a).isSome → g a = none)
    (hh : ∀ a ∈ l, h a = if (f a).isSome then f a else g a) :
    List.Perm (l.filterMap f ++ l.filterMap g) (l.filterMap h) := by
  induction l with
  | nil => simp
  | cons a rest ih =>
    have ihr := ih (fun x hx => hdisj x (by simp [hx])) (fun x hx => hh x (by simp [hx]))
    have hha := hh a (by simp)
    cases hf : f a with
    | some x =>
      have hg : g a = none := hdisj a (by simp) (by simp [hf])
      have hhx : h a = some x := by rw [hha, hf]; simp
      rw [List.filterMap_cons, List.filterMap_cons, List.filterMap_cons, hf, hg, hhx]
      exact (ihr.cons x)
    | none =>
      have hhx : h a = g a := by rw [hha, hf]; simp
      cases hg : g a with
      | some y =>
        have hhy : h a = some y := by rw [hhx, hg]
        rw [List.filterMap_cons, List.filterMap_cons, List.filterMap_cons, hf, hg, hhy]
        exact List.Perm.trans List.perm_middle (ihr.cons y)
      | none =>
        have hhy : h a = none := by rw [hhx, hg]
        rw [List.filterMap_cons, List.filterMap_cons, List.filterMap_cons, hf, hg, hhy]
        exact ihr

theorem targetEntries_lb {V : Type} (ba : List (String × BoundVal V)) :
    ∀ (ps : List (PyParam V)) (i : Nat) (e : AEntry V),
      e ∈ targetEntries ba i ps → i ≤ e.idx := by
  intro ps
  induction ps with
  | nil => intro i e h; simp [targetEntries] at h
  | cons p rest ih =>
    intro i e h
    unfold targetEntries at h
    by_cases hkind : p.kind = PKind.posOnly ∨ p.kind = PKind.posOrKw
    · rw [if_pos hkind] at h
      cases hlk : lookupBa p.name ba with
      | some v =>
        rw [hlk] at h
        rcases List.mem_cons.mp h with rfl | h'
        · simp
        · exact Nat.le_of_succ_le (ih (i + 1) e h')
      | none =>
        rw [hlk] at h
        cases hd : p.default with
        | some d =>
          rw [hd] at h
          rcases List.mem_cons.mp h with rfl | h'
          · simp
          · exact Nat.le_of_succ_le (ih (i + 1) e h')
        | none =>
          rw [hd] at h
          exact Nat.le_of_succ_le (ih (i + 1) e h)
    · rw [if_neg hkind] at h
      exact Nat.le_of_succ_le (ih (i + 1) e h)

theorem targetEntries_pairwise {V : Type} (ba : List (String × BoundVal V)) :
    ∀ (ps : List (PyParam V)) (i : Nat),
      (targetEntries ba i ps).Pairwise (fun a b => a.idx < b.idx) := by
  intro ps
  induction ps with
  | nil => intro i; simp [targetEntries]
  | cons p rest ih =>
    intro i
    have hhead : ∀ (e : AEntry V), e.idx = i →
        ∀ b ∈ targetEntries ba (i + 1) rest, e.idx < b.idx := by
      intro e he b hb
      rw [he]
      exact Nat.lt_of_succ_le (targetEntries_lb ba rest (i + 1) b hb)
    unfold targetEntries
    by_cases hkind : p.kind = PKind.posOnly ∨ p.kind = PKind.posOrKw
    · rw [if_pos hkind]
      cases hlk : lookupBa p.name ba with
      | some v =>
        exact List.Pairwise.cons (hhead _ rfl) (ih (i + 1))
      | none =>
        cases hd : p.default with
        | some d => exact List.Pairwise.cons (hhead _ rfl) (ih (i + 1))
        | none => exact ih (i + 1)
    · rw [if_neg hkind]
      exact ih (i + 1)

theorem pyBind_eq_orderBa {V : Type} (params : List (PyParam V))
    (args : List V) (kwargs : List (String × V))
    (ba : List (String × BoundVal V)) :
    pyBind params args kwargs = some ba →
    ∃ X, ba = orderBa params X ∧ bindComplete params X = true := by
  intro h
  unfold pyBind at h
  cases h1 : bindPos params args with
  | none => rw [h1] at h; simp at h
  | some posB =>
    rw [h1] at h
    dsimp only at h
    cases h2 : bindKw params kwargs (posB.map Prod.fst) with
    | none => rw [h2] at h; simp at h
    | some r =>
      obtain ⟨kwB, extras⟩ := r
      rw [h2] at h
      dsimp only at h
      cases h3 : params.find? (fun p => p.kind == PKind.varKw) with
      | some pk =>
        rw [h3] at h
        dsimp only at h
        by_cases hc : bindComplete params (posB ++ kwB ++
            (if extras.isEmpty then [] else [(pk.name, BoundVal.dictv extras)])) = true
        · refine ⟨posB ++ kwB ++
            (if extras.isEmpty then [] else [(pk.name, BoundVal.dictv extras)]), ?_, hc⟩
          rw [if_pos hc] at h
          exact (Option.some.inj h).symm
        · rw [if_neg hc] at h
          simp at h
      | none =>
        rw [h3] at h
        dsimp only at h
        by_cases he : extras.isEmpty = true
        · rw [if_pos he] at h
          by_cases hc : bindComplete params (posB ++ kwB) = true
          · refine ⟨posB ++ kwB, ?_, hc⟩
            rw [if_pos hc] at h
            exact (Option.some.inj h).symm
          · rw [if_neg hc] at h
            simp at h
        · rw [if_neg he] at h
          simp at h

theorem bindComplete_required {V : Type} (params : List (PyParam V))
    (X : List (String × BoundVal V)) (hc : bindComplete params X = true) :
    ∀ p ∈ params, (p.kind = PKind.posOnly ∨ p.kind = PKind.posOrKw) →
      p.default = none → (lookupBa p.name X).isSome = true := by
  intro p hp hkind hd
  have := (List.all_eq_true.mp hc) p hp
  rcases hkind with hk | hk <;> rw [hk, hd] at this <;> exact this

theorem filterMap_rowK_eq_target {V : Type} (params : List (PyParam V))
    (ba : List (String × BoundVal V)) :
    ∀ (ps : List (PyParam V)) (i : Nat),
      (∀ (j : Nat) (p : PyParam V), ps[j]? = some p →
        paramIdx p.name 0 params = some (p, i + j)) →
      (∀ p ∈ ps, lookupBa p.name
          ((defaultEntries params).map (fun x => (x.1, BoundVal.single x.2)))
          = p.default.map BoundVal.single) →
      ps.filterMap (rowK params ba) = targetEntries ba i ps := by
  intro ps
  induction ps with
  | nil => intro i _ _; simp [targetEntries]
  | cons p rest ih =>
    intro i hidx hbase
    have hp0 : paramIdx p.name 0 params = some (p, i) := by
      have := hidx 0 p (by simp)
      simpa using this
    have hbasep : lookupBa p.name
        ((defaultEntries params).map (fun x => (x.1, BoundVal.single x.2)))
        = p.default.map BoundVal.single := hbase p (by simp)
    have hrest := ih (i + 1)
      (fun j q hq => by
        have := hidx (j + 1) q (by simpa using hq)
        simpa [Nat.add_assoc, Nat.add_comm 1 j] using this)
      (fun q hq => hbase q (by simp [hq]))
    rw [List.filterMap_cons]
    by_cases hkind : p.kind = PKind.posOnly ∨ p.kind = PKind.posOrKw
    · have hposP : ∀ x : BoundVal V, posP (AEntry.mk p.name x p.kind i) = true := by
        intro x
        rcases hkind with hk | hk <;> simp [posP, hk]
      cases hd : p.default with
      | some d =>
        cases hlk : lookupBa p.name ba with
        | some v =>
          have hk1 : rowK params ba p = some (AEntry.mk p.name v p.kind i) := by
            unfold rowK rowK1
            simp [hd, hlk, rowG, hp0, Option.filter, Option.elim, hposP]
          rw [hk1]
          unfold targetEntries
          rw [if_pos hkind, hlk, hrest]
        | none =>
          have hk1 : rowK params ba p
              = some (AEntry.mk p.name (BoundVal.single d) p.kind i) := by
            unfold rowK rowK1
            simp [hd, hlk, rowG, hp0, Option.filter, Option.elim, hposP]
          rw [hk1]
          unfold targetEntries
          rw [if_pos hkind, hlk, hd, hrest]
      | none =>
        have hk1none : rowK1 params ba p = none := by
          unfold rowK1
          rw [hd]
          rfl
        cases hlk : lookupBa p.name ba with
        | some v =>
          have hk : rowK params ba p = some (AEntry.mk p.name v p.kind i) := by
            unfold rowK
            rw [hk1none]
            unfold rowK2
            simp [hlk, hbasep, hd, rowG, hp0, Option.filter, Option.elim, hposP]
          rw [hk]
          unfold targetEntries
          rw [if_pos hkind, hlk, hrest]
        | none =>
          have hk : rowK params ba p = none := by
            unfold rowK
            rw [hk1none]
            unfold rowK2
            simp [hlk]
          rw [hk]
          unfold targetEntries
          rw [if_pos hkind, hlk, hd, hrest]
    · have hposPf : ∀ (x : BoundVal V), posP (AEntry.mk p.name x p.kind i) = false := by
        intro x
        push_neg at hkind
        simp [posP, hkind.1, hkind.2]
      have hk : rowK params ba p = none := by
        unfold rowK rowK1 rowK2
        cases hd : p.default with
        | some d =>
          cases hlk : lookupBa p.name ba with
          | some v => simp [hd, hlk, rowG, hp0, Option.filter, Option.elim, hposPf]
          | none => simp [hd, hlk, rowG, hp0, Option.filter, Option.elim, hposPf]
        | none =>
          cases hlk : lookupBa p.name ba with
          | some v => simp [hd, hlk, rowG, hp0, Option.filter, Option.elim, hposPf, hbasep]
          | none => simp [hd, hlk, hbasep]
      rw [hk]
      unfold targetEntries
      rw [if_neg hkind, hrest]

theorem target_forall2 {V : Type} (ba : List (String × BoundVal V)) :
    ∀ (ps : List (PyParam V)) (i : Nat),
      (∀ p ∈ ps, (p.kind = PKind.posOnly ∨ p.kind = PKind.posOrKw) →
        p.default = none → (lookupBa p.name ba).isSome = true) →
      List.Forall₂
        (fun (p : PyParam V) (e : String × BoundVal V) =>
          e.1 = p.name ∧
          ((∃ v, lookupBa p.name ba = some v ∧ e.2 = v) ∨
           (lookupBa p.name ba = none ∧
            ∃ d, p.default = some d ∧ e.2 = BoundVal.single d)))
        (ps.filter fun p => p.kind == PKind.posOnly || p.kind == PKind.posOrKw)
        ((targetEntries ba i ps).map (fun e => (e.name, e.val))) := by
  intro ps
  induction ps with
  | nil => intro i _; simp [targetEntries]
  | cons p rest ih =>
    intro i hreq
    have hrest := ih (i + 1) (fun q hq => hreq q (by simp [hq]))
    by_cases hkind : p.kind = PKind.posOnly ∨ p.kind = PKind.posOrKw
    · have hfilter : (p :: rest).filter
          (fun p => p.kind == PKind.posOnly || p.kind == PKind.posOrKw)
          = p :: rest.filter (fun p => p.kind == PKind.posOnly || p.kind == PKind.posOrKw) := by
        rcases hkind with hk | hk <;> simp [List.filter_cons, hk]
      rw [hfilter]
      unfold targetEntries
      rw [if_pos hkind]
      cases hlk : lookupBa p.name ba with
      | some v =>
        simp only [List.map_cons]
        exact List.Forall₂.cons ⟨rfl, Or.inl ⟨v, hlk, rfl⟩⟩ hrest
      | none =>
        cases hd : p.default with
        | some d =>
          simp only [List.map_cons]
          exact List.Forall₂.cons ⟨rfl, Or.inr ⟨hlk, d, hd, rfl⟩⟩ hrest
        | none =>
          have := hreq p (by simp) hkind hd
          rw [hlk] at this
          simp at this
    · have hfilter : (p :: rest).filter
          (fun p => p.kind == PKind.posOnly || p.kind == PKind.posOrKw)
          = rest.filter (fun p => p.kind == PKind.posOnly || p.kind == PKind.posOrKw) := by
        push_neg at hkind
        simp [List.filter_cons, hkind.1, hkind.2]
      rw [hfilter]
      unfold targetEntries
      rw [if_neg hkind]
      exact hrest

theorem posEntries_decomp {V : Type} (params : List (PyParam V))
    (ba : List (String × BoundVal V))
    (hba2 : ba = params.filterMap
      (fun q => (lookupBa q.name ba).map (fun v => (q.name, v)))) :
    ((pyUpdate ((defaultEntries params).map (fun e => (e.1, BoundVal.single e.2))) ba).filterMap
        (fun e => (paramIdx e.1 0 params).map fun pi => AEntry.mk e.1 e.2 pi.1.kind pi.2)).filter
      (fun e => e.kind == PKind.posOnly || e.kind == PKind.posOrKw)
    = params.filterMap (rowK1 params ba) ++ params.filterMap (rowK2 params ba) := by
  unfold pyUpdate
  rw [List.filterMap_append, List.filter_append]
  congr 1
  · show (((params.filterMap (fun p => p.default.map (fun d => (p.name, d)))).map
        (fun e => (e.1, BoundVal.single e.2))).map
        (fun e => (lookupBa e.1 ba).elim e (fun v => (e.1, v))) |>.filterMap
        (fun e => (paramIdx e.1 0 params).map fun pi => AEntry.mk e.1 e.2 pi.1.kind pi.2)).filter
        (fun e => e.kind == PKind.posOnly || e.kind == PKind.posOrKw)
      = params.filterMap (rowK1 params ba)
    rw [List.map_filterMap, List.map_filterMap, List.filterMap_filterMap,
      List.filter_filterMap]
    apply List.filterMap_congr
    intro p _
    unfold rowK1 rowG posP
    cases p.default <;> rfl
  · conv_lhs => rw [hba2]
    rw [List.filter_filterMap, List.filter_filterMap, List.filterMap_filterMap]
    apply List.filterMap_congr
    intro p _
    unfold rowK2 rowG posP
    cases lookupBa p.name ba with
    | none => rfl
    | some v =>
      cases (lookupBa (p.name, v).1
          ((defaultEntries params).map (fun x => (x.1, BoundVal.single x.2)))).isNone <;> rfl

/-- C10: for every signature and every args/kwargs binding accepted by it,
`get_siginfo` returns a `SigInfo` whose `args` lists the positional
(positional-only and positional-or-keyword) parameters in declaration order —
regardless of whether each was passed positionally or by keyword — with every
omitted parameter that declares a default filled in with that default, and
whose `defaultdict` maps exactly the parameters that declare defaults to
those defaults. -/
theorem get_siginfo_positional_C10 {V : Type} (params : List (PyParam V))
    (args : List V) (kwargs : List (String × V))
    (ba : List (String × BoundVal V)) (si : SigInfoM V)
    (hnames : (params.map PyParam.name).Nodup)
    (hbind : pyBind params args kwargs = some ba)
    (hsig : get_siginfo params args kwargs = some si) :
    List.Forall₂
      (fun (p : PyParam V) (e : String × BoundVal V) =>
        e.1 = p.name ∧
        ((∃ v, lookupBa p.name ba = some v ∧ e.2 = v) ∨
         (lookupBa p.name ba = none ∧
          ∃ d, p.default = some d ∧ e.2 = BoundVal.single d)))
      (params.filter fun p => p.kind == PKind.posOnly || p.kind == PKind.posOrKw)
      si.args ∧
    si.defaultdict = defaultEntries params := by
  unfold get_siginfo at hsig
  rw [hbind] at hsig
  simp only [Option.map_some', Option.some.injEq] at hsig
  rcases pyBind_eq_orderBa params args kwargs ba hbind with ⟨X, hbaX, hcomp⟩
  have hbalookup : ∀ p ∈ params, lookupBa p.name ba = lookupBa p.name X := by
    intro p hp
    rw [hbaX]
    show lookupBa p.name
      (params.filterMap fun q => (lookupBa q.name X).map (fun v => (q.name, v))) = _
    exact lookupBa_filterMap_name (fun q => lookupBa q.name X) params p hp hnames
  have hba2 : ba = params.filterMap
      (fun q => (lookupBa q.name ba).map (fun v => (q.name, v))) := by
    conv_lhs => rw [hbaX]
    show params.filterMap (fun q => (lookupBa q.name X).map (fun v => (q.name, v))) = _
    apply List.filterMap_congr
    intro p hp
    rw [hbalookup p hp]
  have hbasel : ∀ p ∈ params,
      lookupBa p.name ((defaultEntries params).map (fun x => (x.1, BoundVal.single x.2)))
        = p.default.map BoundVal.single := by
    intro p hp
    have hlist : (defaultEntries params).map (fun x => (x.1, BoundVal.single x.2))
        = params.filterMap
          (fun q => (q.default.map BoundVal.single).map (fun w => (q.name, w))) := by
      unfold defaultEntries
      rw [List.map_filterMap]
      apply List.filterMap_congr
      intro q _
      cases q.default <;> rfl
    rw [hlist]
    exact lookupBa_filterMap_name (fun q => q.default.map BoundVal.single) params p hp hnames
  have hreq : ∀ p ∈ params, (p.kind = PKind.posOnly ∨ p.kind = PKind.posOrKw) →
      p.default = none → (lookupBa p.name ba).isSome = true := by
    intro p hp hkind hd
    rw [hbalookup p hp]
    exact bindComplete_required params X hcomp p hp hkind hd
  have hidx : ∀ (j : Nat) (p : PyParam V), params[j]? = some p →
      paramIdx p.name 0 params = some (p, 0 + j) :=
    fun j p hj => paramIdx_at_position params 0 j p hj hnames
  have htarget : params.filterMap (rowK params ba) = targetEntries ba 0 params :=
    filterMap_rowK_eq_target params ba params 0 hidx (fun p hp => hbasel p hp)
  have hdisj : ∀ p ∈ params, (rowK1 params ba p).isSome → rowK2 params ba p = none := by
    intro p hp h1
    cases hd : p.default with
    | none =>
      unfold rowK1 at h1
      rw [hd] at h1
      simp at h1
    | some d =>
      unfold rowK2
      cases hlk : lookupBa p.name ba with
      | none => simp [hlk]
      | some v => simp [hlk, hbasel p hp, hd, Option.filter]
  have hperm : List.Perm
      (params.filterMap (rowK1 params ba) ++ params.filterMap (rowK2 params ba))
      (params.filterMap (rowK params ba)) :=
    filterMap_append_perm _ _ _ params hdisj (fun a _ => rfl)
  have hPT := posEntries_decomp params ba hba2
  have hpermT : List.Perm
      (((pyUpdate ((defaultEntries params).map (fun e => (e.1, BoundVal.single e.2))) ba).filterMap
          (fun e => (paramIdx e.1 0 params).map fun pi => AEntry.mk e.1 e.2 pi.1.kind pi.2)).filter
        (fun e => e.kind == PKind.posOnly || e.kind == PKind.posOrKw))
      (targetEntries ba 0 params) := by
    rw [hPT, ← htarget]
    exact hperm
  have hsperm : List.Perm
      ((((pyUpdate ((defaultEntries params).map (fun e => (e.1, BoundVal.single e.2))) ba).filterMap
          (fun e => (paramIdx e.1 0 params).map fun pi => AEntry.mk e.1 e.2 pi.1.kind pi.2)).filter
        (fun e => e.kind == PKind.posOnly || e.kind == PKind.posOrKw)).sortByIdx)
      (targetEntries ba 0 params) :=
    (List.perm_insertionSort _ _).trans hpermT
  have hsorted : ((((pyUpdate ((defaultEntries params).map (fun e => (e.1, BoundVal.single e.2))) ba).filterMap
          (fun e => (paramIdx e.1 0 params).map fun pi => AEntry.mk e.1 e.2 pi.1.kind pi.2)).filter
        (fun e => e.kind == PKind.posOnly || e.kind == PKind.posOrKw)).sortByIdx).Pairwise
      (fun (a b : AEntry V) => a.idx ≤ b.idx) := by
    haveI : IsTotal (AEntry V) (fun a b => a.idx ≤ b.idx) :=
      ⟨fun a b => Nat.le_total a.idx b.idx⟩
    haveI : IsTrans (AEntry V) (fun a b => a.idx ≤ b.idx) :=
      ⟨fun a b c => Nat.le_trans⟩
    exact List.sorted_insertionSort (fun (a b : AEntry V) => a.idx ≤ b.idx) _
  have htargetnd : ((targetEntries ba 0 params).map AEntry.idx).Nodup := by
    have hp := targetEntries_pairwise ba params 0
    have : (targetEntries ba 0 params).Pairwise
        (fun a b => AEntry.idx a ≠ AEntry.idx b) :=
      hp.imp (fun h => Nat.ne_of_lt h)
    exact List.pairwise_map.mpr this
  have hnd : ((((pyUpdate ((defaultEntries params).map (fun e => (e.1, BoundVal.single e.2))) ba).filterMap
          (fun e => (paramIdx e.1 0 params).map fun pi => AEntry.mk e.1 e.2 pi.1.kind pi.2)).filter
        (fun e => e.kind == PKind.posOnly || e.kind == PKind.posOrKw)).sortByIdx).Pairwise
      (fun (a b : AEntry V) => a.idx ≠ b.idx) := by
    have := ((hsperm.map AEntry.idx).nodup_iff).mpr htargetnd
    exact List.pairwise_map.mp this
  have hstrict : ((((pyUpdate ((defaultEntries params).map (fun e => (e.1, BoundVal.single e.2))) ba).filterMap
          (fun e => (paramIdx e.1 0 params).map fun pi => AEntry.mk e.1 e.2 pi.1.kind pi.2)).filter
        (fun e => e.kind == PKind.posOnly || e.kind == PKind.posOrKw)).sortByIdx).Pairwise
      (fun (a b : AEntry V) => a.idx < b.idx) := by
    have hand := List.Pairwise.and hsorted hnd
    exact hand.imp (fun h => Nat.lt_of_le_of_ne h.1 h.2)
  have heqsort : (((pyUpdate ((defaultEntries params).map (fun e => (e.1, BoundVal.single e.2))) ba).filterMap
          (fun e => (paramIdx e.1 0 params).map fun pi => AEntry.mk e.1 e.2 pi.1.kind pi.2)).filter
        (fun e => e.kind == PKind.posOnly || e.kind == PKind.posOrKw)).sortByIdx
      = targetEntries ba 0 params :=
    @List.eq_of_perm_of_sorted _ (fun (a b : AEntry V) => a.idx < b.idx)
      ⟨fun a b h1 h2 => absurd h2 (Nat.lt_asymm h1)⟩ _ _
      hsperm hstrict (targetEntries_pairwise ba params 0)
  subst hsig
  constructor
  · show List.Forall₂ _ _
      ((((pyUpdate ((defaultEntries params).map (fun e => (e.1, BoundVal.single e.2))) ba).filterMap
          (fun e => (paramIdx e.1 0 params).map fun pi => AEntry.mk e.1 e.2 pi.1.kind pi.2)).filter
        (fun e => e.kind == PKind.posOnly || e.kind == PKind.posOrKw)).sortByIdx |>.map (fun e => (e.name, e.val)))
    rw [heqsort]
    exact target_forall2 ba params 0 hreq
  · rfl

/-- Closed witness for C10: calling `foo(a, b=5, *, c=7)` as `foo(1, c=2)`;
all hypotheses are discharged by computation and the theorem is applied at
these inputs. -/
theorem get_siginfo_positional_C10_witness :
    ((witParams.map PyParam.name).Nodup ∧
     pyBind witParams [1] [("c", 2)]
        = some [("a", BoundVal.single 1), ("c", BoundVal.single 2)] ∧
     get_siginfo witParams [1] [("c", 2)]
        = some ⟨[("a", BoundVal.single 1), ("b", BoundVal.single 5)], none,
            [("c", BoundVal.single 2)], none, [("b", 5), ("c", 7)]⟩) ∧
    (List.Forall₂
      (fun (p : PyParam Nat) (e : String × BoundVal Nat) =>
        e.1 = p.name ∧
        ((∃ v, lookupBa p.name
            [("a", BoundVal.single 1), ("c", BoundVal.single 2)] = some v ∧ e.2 = v) ∨
         (lookupBa p.name
            [("a", BoundVal.single 1), ("c", BoundVal.single 2)] = none ∧
          ∃ d, p.default = some d ∧ e.2 = BoundVal.single d)))
      (witParams.filter fun p => p.kind == PKind.posOnly || p.kind == PKind.posOrKw)
      (SigInfoM.args ⟨[("a", BoundVal.single 1), ("b", BoundVal.single 5)], none,
          [("c", BoundVal.single 2)], none, [("b", 5), ("c", 7)]⟩) ∧
     SigInfoM.defaultdict (V := Nat) ⟨[("a", BoundVal.single 1), ("b", BoundVal.single 5)], none,
          [("c", BoundVal.single 2)], none, [("b", 5), ("c", 7)]⟩
        = defaultEntries witParams) :=
  ⟨⟨by decide, by decide, by decide⟩,
   get_siginfo_positional_C10 witParams [1] [("c", 2)]
     [("a", BoundVal.single 1), ("c", BoundVal.single 2)]
     ⟨[("a", BoundVal.single 1), ("b", BoundVal.single 5)], none,
       [("c", BoundVal.single 2)], none, [("b", 5), ("c", 7)]⟩
     (by decide) (by decide) (by decide)⟩

/-- Closed witness for C4: the general bookend facts applied to the
sandwiched-transpose region. -/
theorem bookend_hoist_C4_witness :
    (bookend bkRegion2).1 ++ (bookend bkRegion2).2.1 ++ (bookend bkRegion2).2.2 = bkRegion2 ∧
    (∀ op ∈ (bookend bkRegion2).1, op.layout = true) ∧
    (∀ op ∈ (bookend bkRegion2).2.2, op.layout = true) :=
  bookend_hoist_C4.1 bkRegion2

/-- Closed witness for C6: the positional/keyword distinction applied to a
concrete symbol and arguments. -/
theorem positional_vs_keyword_C6_witness :
    rhs (BSym.mk ⟨0, "add"⟩ [TVal.numv 1, TVal.numv 2] [])
        ≠ rhs (BSym.mk ⟨0, "add"⟩ [] [("a", TVal.numv 1), ("b", TVal.numv 2)]) ∧
    rhsHash (BSym.mk ⟨0, "add"⟩ [TVal.numv 1, TVal.numv 2] [])
        ≠ rhsHash (BSym.mk ⟨0, "add"⟩ [] [("a", TVal.numv 1), ("b", TVal.numv 2)]) ∧
    symEq (BSym.mk ⟨0, "add"⟩ [TVal.numv 1, TVal.numv 2] []).sym
        (BSym.mk ⟨0, "add"⟩ [] [("a", TVal.numv 1), ("b", TVal.numv 2)]).sym = true ∧
    symHash (BSym.mk ⟨0, "add"⟩ [TVal.numv 1, TVal.numv 2] []).sym
        = symHash (BSym.mk ⟨0, "add"⟩ [] [("a", TVal.numv 1), ("b", TVal.numv 2)]).sym :=
  positional_vs_keyword_C6 ⟨0, "add"⟩ (TVal.numv 1) (TVal.numv 2) "a" "b"
